import Mathlib

/-!
Verification of the text-processing core of the ai-news-intelligence-hub
repository: the Segmenter (`processor.py`), the Taxonomy Classifier
(`taxonomy.py`), the Topic Merger (`analyze_topics.py`) and the Relevance
Ranker (`fetcher.py`).  Python strings are modelled as `String`/`List Char`
over the ASCII range (where `str.lower`, NFKC normalisation and the regex
character classes used by the code coincide with the Lean models below);
Python integers are `Int`/`Nat`; Python dicts are insertion-ordered
association lists; Python sets of strings are insertion-ordered duplicate-free
lists (all set observations made by the code are order-independent).
-/

namespace NewsHub

/-- Python truthiness defaulting `x or d` for an optional integer argument:
`None or d = d`, `0 or d = d`, otherwise the value itself.  Models the
`chunk_size = chunk_size or CHUNK_CONFIG.chunk_size` lines of `processor.py`. -/
def pyArg (x : Option Nat) (d : Nat) : Nat :=
  match x with
  | none => d
  | some v => if v = 0 then d else v

/-- Python `str.lower` (ASCII). -/
def pyLower (s : String) : String :=
  ⟨s.data.map Char.toLower⟩

/-- Whitespace characters of Python `str.strip` / `str.split` (ASCII range). -/
def isPyWs (c : Char) : Bool :=
  c = ' ' || c = '\t' || c = '\n' || c = '\r' || c = '\x0b' || c = '\x0c'

/-- Python `str.strip` on a character list. -/
def pyStrip (l : List Char) : List Char :=
  ((l.dropWhile isPyWs).reverse.dropWhile isPyWs).reverse

/-- Python `str.strip` on a string. -/
def pyStripStr (s : String) : String :=
  ⟨pyStrip s.data⟩

/-- Does `pre` start `l`? (model of Python prefix comparison used below). -/
def startsL : List Char → List Char → Bool
  | [], _ => true
  | _ :: _, [] => false
  | a :: as, b :: bs => a = b && startsL as bs

/-- Python substring test `needle in hay` on character lists
(the empty needle is contained in everything). -/
def containsSub : List Char → List Char → Bool
  | needle, [] => needle.isEmpty
  | needle, c :: t => startsL needle (c :: t) || containsSub needle t

/-- Python substring test `a in b` on strings. -/
def containsSubStr (a b : String) : Bool :=
  containsSub a.data b.data

/-- Python `str.split()` with no separator: split on whitespace runs,
discarding empty pieces. -/
def pyWords (s : String) : List String :=
  ((s.data.splitOnP (fun c => isPyWs c)).filter (fun p => ¬ p.isEmpty)).map
    (fun p => (⟨p⟩ : String))

/-- Python `set.add` modelled on an insertion-ordered duplicate-free list. -/
def addEx (l : List String) (x : String) : List String :=
  if x ∈ l then l else l ++ [x]

/-- Python `set.update` (union into the left set). -/
def unionEx (a b : List String) : List String :=
  b.foldl addEx a

/-- Distinct elements of a list in first-occurrence order: Python `set(xs)`
(every observation the code makes of such a set is order-independent). -/
def dedupKeep (l : List String) : List String :=
  l.foldl addEx []

/-- Python `str.title` (ASCII): uppercase every alphabetic character that
follows a non-alphabetic one, lowercase the rest.  The boolean argument
records whether the previous character was alphabetic. -/
def pyTitleGo : Bool → List Char → List Char
  | _, [] => []
  | prev, c :: t =>
    if c.isAlpha then
      (if prev then c.toLower else c.toUpper) :: pyTitleGo true t
    else
      c :: pyTitleGo false t

/-- Python `str.title` on strings. -/
def pyTitle (s : String) : String :=
  ⟨pyTitleGo false s.data⟩

/-- Stable insertion: place `a` immediately before the first element `b`
with `bef a b`, keeping the relative order of the remaining elements. -/
def stInsert (bef : α → α → Bool) (a : α) : List α → List α
  | [] => [a]
  | b :: t => if bef a b then a :: b :: t else b :: stInsert bef a t

/-- Stable sort by repeated insertion.  With `bef a b := key b ≤ key a` this
is the observable semantics of Python's stable `list.sort(key, reverse=True)`;
with `bef a b := a ≤ b` it is Python's `sorted` ascending. -/
def stSort (bef : α → α → Bool) : List α → List α
  | [] => []
  | a :: t => stInsert bef a (stSort bef t)

/-- String comparator for Python `sorted` (code-point lexicographic). -/
def strLe (a b : String) : Bool :=
  decide (a ≤ b)

/-- The `TAXONOMY` mapping of `taxonomy.py`: canonical topic → synonym list,
in definition order (Python dicts preserve insertion order). -/
def TAXONOMY : List (String × List String) :=
  [ ("OpenAI",
     ["openai", "chatgpt", "gpt-4", "gpt-5", "gpt-4o", "gpt-5.2", "gpt-5.3",
      "sam altman", "codex", "dall-e", "dalle", "sora", "openai api"]),
    ("Anthropic",
     ["anthropic", "claude", "claude 3", "claude 4", "claude sonnet",
      "claude opus", "claude haiku", "dario amodei", "constitutional ai"]),
    ("Google AI",
     ["google ai", "gemini", "deepmind", "google deepmind", "bard",
      "gemini pro", "gemini ultra", "google brain", "tensorflow"]),
    ("Microsoft AI",
     ["microsoft ai", "copilot", "github copilot", "azure ai", "azure openai",
      "bing ai", "microsoft copilot", "kevin scott"]),
    ("Meta AI",
     ["meta ai", "llama", "llama 2", "llama 3", "llama 4", "yann lecun",
      "meta llama", "facebook ai"]),
    ("xAI",
     ["xai", "grok", "grok-2", "grok-3", "elon musk ai", "x.ai"]),
    ("Mistral",
     ["mistral", "mistral ai", "mixtral", "mistral large", "le chat"]),
    ("Open Source Models",
     ["open source llm", "hugging face", "huggingface", "ollama", "open weights",
      "stability ai", "stable diffusion", "falcon", "mpt", "open source ai"]),
    ("ByteDance AI",
     ["bytedance", "doubao", "seedance", "bytedance ai"]),
    ("Nvidia",
     ["nvidia", "cuda", "nvidia ai", "jensen huang", "h100", "a100",
      "nvidia gpu", "tensorrt", "nvidia inference"]),
    ("AI Agents",
     ["ai agent", "ai agents", "agentic", "agentic ai", "autonomous agent",
      "agent framework", "multi-agent", "agent loop", "tool use"]),
    ("LLMs",
     ["llm", "llms", "large language model", "large language models",
      "language model", "foundation model", "foundation models"]),
    ("Reinforcement Learning",
     ["reinforcement learning", "rl", "rlhf", "ppo", "dpo", "reward model",
      "policy optimization", "deep reinforcement learning"]),
    ("Multimodal AI",
     ["multimodal", "vision language", "vlm", "image understanding",
      "visual language model", "multimodal llm", "image-text"]),
    ("Code Generation",
     ["code generation", "ai coding", "code assistant", "coding assistant",
      "vibe coding", "ai programmer", "code completion", "code synthesis"]),
    ("Video Generation",
     ["video generation", "ai video", "text to video", "video ai",
      "video synthesis", "ai filmmaking", "video model"]),
    ("RAG",
     ["rag", "retrieval augmented", "retrieval-augmented generation",
      "vector search", "semantic search", "embedding search"]),
    ("Fine-tuning",
     ["fine-tuning", "fine tuning", "finetuning", "lora", "qlora",
      "adapter", "peft", "instruction tuning"]),
    ("Reasoning",
     ["reasoning", "chain of thought", "chain-of-thought", "cot",
      "o1", "o3", "o4", "deep think", "step by step reasoning"]),
    ("AI Benchmarks",
     ["benchmark", "benchmarking", "evaluation", "eval", "mmlu",
      "leaderboard", "ai benchmark", "model evaluation"]),
    ("Enterprise AI",
     ["enterprise ai", "enterprise", "business ai", "corporate ai",
      "ai transformation", "ai adoption", "ai implementation"]),
    ("Healthcare AI",
     ["healthcare ai", "medical ai", "health ai", "clinical ai",
      "diagnosis ai", "drug discovery", "biomedical ai", "health tech"]),
    ("Education AI",
     ["education ai", "edtech", "ai tutor", "learning ai", "ai education",
      "ai teaching", "educational ai", "language learning"]),
    ("AI Search",
     ["ai search", "searchgpt", "perplexity", "search ai", "ai-powered search",
      "conversational search", "semantic search engine"]),
    ("Cybersecurity AI",
     ["cybersecurity", "ai security", "security ai", "threat detection",
      "malware", "cyber attack", "hacking", "infosec ai"]),
    ("Robotics",
     ["robotics", "robot", "humanoid", "robotic", "manipulation",
      "embodied ai", "robot learning", "autonomous robot"]),
    ("AI Infrastructure",
     ["ai infrastructure", "data center", "ai chip", "ai hardware",
      "compute", "gpu cluster", "inference chip", "ai server", "tpu"]),
    ("Creative AI",
     ["ai art", "generative art", "ai music", "ai creative", "ai design",
      "creative ai", "ai animation", "ai filmmaking"]),
    ("AI Safety",
     ["ai safety", "alignment", "ai alignment", "existential risk",
      "x-risk", "ai risk", "safe ai", "safety research"]),
    ("AI Ethics",
     ["ai ethics", "bias", "fairness", "responsible ai", "ai bias",
      "ethical ai", "discrimination", "ai fairness"]),
    ("AI Regulation",
     ["ai regulation", "ai law", "eu ai act", "ai governance",
      "ai policy", "regulate ai", "ai legislation", "government ai"]),
    ("Job Market",
     ["job loss", "job market", "automation", "ai jobs", "workforce",
      "employment", "job displacement", "future of work", "ai replacing"]),
    ("AI Startups",
     ["ai startup", "funding", "investment", "venture capital", "vc",
      "seed round", "series a", "ai investment", "startup", "ipo"]),
    ("AI Research",
     ["research", "paper", "arxiv", "study", "researchers",
      "scientific", "academic", "breakthrough", "discovery"]),
    ("Accessibility",
     ["accessibility", "accessible", "disability", "deaf", "blind",
      "assistive", "inclusive ai", "a11y"]) ]

/-- `classify_text` of `taxonomy.py`: lowercase the input once; for each topic
in taxonomy order append the topic on the first synonym that occurs as a
substring of the lowered text (the inner `break` makes the synonym scan an
existential test). -/
def classify_text (text : String) : List String :=
  let text_lower := pyLower text
  TAXONOMY.foldl
    (fun acc kv =>
      if kv.2.any (fun syn => containsSubStr (pyLower syn) text_lower) then
        acc ++ [kv.1]
      else acc)
    []

/-- `_RELEVANCE_TERMS` of `fetcher.py`: the set of all taxonomy synonyms,
lowercased (modelled as the duplicate-free list in first-occurrence order;
the only observation made of it is the order-independent match count). -/
def relevanceTerms : List String :=
  dedupKeep (TAXONOMY.foldl (fun acc kv => acc ++ kv.2.map pyLower) [])

/-- An RSS feed entry as observed by `_score_entry_relevance`: the `title`
and `summary` fields, `none` when missing (the code replaces a missing or
falsy field by the empty string). -/
structure Entry where
  title : Option String
  summary : Option String
deriving DecidableEq, Repr

/-- `_score_entry_relevance` of `fetcher.py`: the number of distinct taxonomy
terms occurring (case-insensitively) in `title + " " + summary`. -/
def score_entry_relevance (e : Entry) : Nat :=
  let text := pyLower ((e.title.getD "") ++ " " ++ (e.summary.getD ""))
  (relevanceTerms.filter (fun term => containsSubStr term text)).length

/-- The relevance-ranking step of `fetch_feed` (`fetcher.py` lines 391-396):
when there are more entries than the cap, pair each entry with its score,
stable-sort descending by score (`list.sort(key, reverse=True)` is stable)
and keep the first `k`. -/
def fetch_feed_select (entries : List Entry) (k : Nat) : List Entry :=
  if k < entries.length then
    let scored := entries.map (fun e => (e, score_entry_relevance e))
    let sorted := stSort (fun a b => decide (b.2 ≤ a.2)) scored
    (sorted.take k).map (fun p => p.1)
  else entries

/-- A raw topic observation as produced by one batch (`analyze_topics.py`):
a JSON object whose `name` and `count` fields may be missing (`none`).
`merge_topics` reads `topic["name"]` (KeyError — i.e. an abort — when
missing) and `topic.get("count", 1)` / `topic.get("examples", [])`. -/
structure Obs where
  name : Option String
  count : Option Int
  examples : List String
deriving DecidableEq, Repr

/-- An aggregation bucket: `{"count": .., "examples": set(..)}`. -/
structure Bucket where
  count : Int
  examples : List String
deriving DecidableEq, Repr

/-- Step 1 update of `merge_topics`: `topic_map[name]["count"] += cnt` and
`examples.add` for each example, on an insertion-ordered association list
(the `defaultdict` creates a `{0, ∅}` bucket on first touch). -/
def bump (m : List (String × Bucket)) (key : String) (cnt : Int)
    (exs : List String) : List (String × Bucket) :=
  match m with
  | [] => [(key, ⟨cnt, unionEx [] exs⟩)]
  | (k, b) :: t =>
    if k = key then (k, ⟨b.count + cnt, unionEx b.examples exs⟩) :: t
    else (k, b) :: bump t key cnt exs

/-- Processing one observation in step 1 of `merge_topics`:
`name = topic["name"].strip().lower()` raises KeyError (`none`) when the
`name` field is missing; a missing `count` defaults to 1. -/
def aggObs (m : List (String × Bucket)) (o : Obs) :
    Option (List (String × Bucket)) :=
  match o.name with
  | none => none
  | some nm => some (bump m (pyLower (pyStripStr nm)) (o.count.getD 1) o.examples)

/-- Step 1 of `merge_topics` over all batches, threading the KeyError. -/
def aggAll (batches : List (List Obs)) : Option (List (String × Bucket)) :=
  batches.foldlM (fun m b => b.foldlM aggObs m) []

/-- The substring-merge test of step 2: `name in canon or canon in name`. -/
def matchSub (k c : String) : Bool :=
  containsSubStr k c || containsSubStr c k

/-- The word-overlap test of step 2: both keys split into at least two
distinct whitespace-separated words and the overlap of the word sets is at
least the smaller word-set's size (`len(overlap) >= min(...)`). -/
def wordOv (k c : String) : Bool :=
  let kw := dedupKeep (pyWords k)
  let cw := dedupKeep (pyWords c)
  2 ≤ kw.length && 2 ≤ cw.length &&
    min kw.length cw.length ≤ (kw.filter (fun w => w ∈ cw)).length

/-- One step-2 iteration of `merge_topics`: scan the canonical association
list in insertion order and merge `(key, bkt)` into the first match.
A substring match updates the bucket in place; a word-overlap match with a
strictly shorter new key pops the old entry and appends the re-keyed bucket
(`canonical[name] = canonical.pop(canon)` inserts at the end of the dict);
otherwise the bucket is updated in place.  No match appends a new entry. -/
def insertCanon (key : String) (bkt : Bucket) :
    List (String × Bucket) → List (String × Bucket)
  | [] => [(key, bkt)]
  | (c, b) :: t =>
    if matchSub key c then
      (c, ⟨b.count + bkt.count, unionEx b.examples bkt.examples⟩) :: t
    else if wordOv key c then
      if key.length < c.length then
        t ++ [(key, ⟨b.count + bkt.count, unionEx b.examples bkt.examples⟩)]
      else
        (c, ⟨b.count + bkt.count, unionEx b.examples bkt.examples⟩) :: t
    else
      (c, b) :: insertCanon key bkt t

/-- Association-list lookup (Python `topic_map[name]`). -/
def lookupB : List (String × Bucket) → String → Option Bucket
  | [], _ => none
  | (k, b) :: t, key => if k = key then some b else lookupB t key

/-- Step 2 of `merge_topics`: process the raw keys in lexicographic order
(`sorted(topic_map.keys())`), folding each into the canonical list. -/
def canonize (m : List (String × Bucket)) : List (String × Bucket) :=
  (stSort strLe (m.map (fun p => p.1))).foldl
    (fun canon key => insertCanon key ((lookupB m key).getD ⟨0, []⟩) canon) []

/-- A merged topic of the final output. -/
structure Merged where
  name : String
  count : Int
  examples : List String
deriving DecidableEq, Repr

/-- Step 3 of `merge_topics`: title-case the names, keep the five
lexicographically smallest examples, and stable-sort by count descending. -/
def finalize (canon : List (String × Bucket)) : List Merged :=
  let topics := canon.map (fun p =>
    (⟨pyTitle p.1, p.2.count, (stSort strLe p.2.examples).take 5⟩ : Merged))
  stSort (fun a b => decide (b.count ≤ a.count)) topics

/-- `merge_topics` of `analyze_topics.py`; `none` models the KeyError abort
on an observation with a missing `name` field. -/
def merge_topics (batches : List (List Obs)) : Option (List Merged) :=
  (aggAll batches).map (fun m => finalize (canonize m))

/-- A character removed by `clean_text`'s control-character regex
`[\x00-\x08\x0b\x0c\x0e-\x1f\x7f-\x9f]` (newline, tab and `\r` survive). -/
def isCtlRemoved (c : Char) : Bool :=
  (c.val ≤ 0x08) || (c.val = 0x0b) || (c.val = 0x0c) ||
  (0x0e ≤ c.val && c.val ≤ 0x1f) || (0x7f ≤ c.val && c.val ≤ 0x9f)

/-- Whitespace other than newline: the regex class `[^\S\n]` (ASCII). -/
def isNNWs (c : Char) : Bool :=
  isPyWs c && c ≠ '\n'

/-- The regex substitution `[^\S\n]+ → " "`: collapse each run of
non-newline whitespace to a single space (keep the run's last position). -/
def collapseWs : List Char → List Char
  | [] => []
  | c :: t =>
    if isNNWs c then
      match t with
      | [] => [' ']
      | c2 :: _ => if isNNWs c2 then collapseWs t else ' ' :: collapseWs t
    else c :: collapseWs t

/-- The regex substitution `\n{3,} → "\n\n"`: drop a newline while at least
two more follow. -/
def collapseNl : List Char → List Char
  | [] => []
  | c :: t =>
    if c == '\n' && t.head? == some '\n' && t.tail.head? == some '\n' then
      collapseNl t
    else c :: collapseNl t

/-- Split on `'\n'`, keeping empty pieces. -/
def splitNl : List Char → List (List Char)
  | [] => [[]]
  | c :: t =>
    if c == '\n' then [] :: splitNl t
    else
      match splitNl t with
      | [] => [[c]]
      | p :: ps => (c :: p) :: ps

/-- Python `str.splitlines` for texts whose only line break is `'\n'`
(after `collapseWs` no `\r`, `\x0b`, `\x0c` remain): split on `'\n'` and
drop the empty piece a trailing newline would produce. -/
def pySplitlines (l : List Char) : List (List Char) :=
  if l.isEmpty then []
  else if l.getLast? == some '\n' then (splitNl l).dropLast else splitNl l

/-- Python `"\n".join`. -/
def joinNl : List (List Char) → List Char
  | [] => []
  | [p] => p
  | p :: ps => p ++ '\n' :: joinNl ps

/-- `clean_text` of `processor.py`.  NFKC normalisation is the identity on
the ASCII texts modelled here; the remaining steps follow the code: remove
control characters, collapse non-newline whitespace runs, cap newline runs
at two, strip every line, and strip the result. -/
def clean_text (s : String) : List Char :=
  if s.data.isEmpty then []
  else
    let t2 := s.data.filter (fun c => ¬ isCtlRemoved c)
    let t3 := collapseWs t2
    let t4 := collapseNl t3
    let t5 := joinNl ((pySplitlines t4).map (fun ln => pyStrip ln))
    pyStrip t5

/-- A chunk as returned by `chunk_text`: `(chunk_text, start_pos, end_pos)`.
The offsets are Python ints (the loop can in principle make them negative,
so they are modelled as `Int`). -/
abbrev Span := List Char × Int × Int

/-- Python `text[i]` for an in-range index (out-of-range reads never happen
under the guards the code checks first; they default to NUL here). -/
def getC (t : List Char) (i : Int) : Char :=
  if 0 ≤ i then t.getD i.toNat (Char.ofNat 0) else Char.ofNat 0

/-- Python slice `text[a:b]` including the negative-index convention. -/
def pySlice (l : List Char) (a b : Int) : List Char :=
  let n : Int := l.length
  let a2 := if a < 0 then max 0 (n + a) else min a n
  let b2 := if b < 0 then max 0 (n + b) else min b n
  if a2 < b2 then (l.drop a2.toNat).take (b2 - a2).toNat else []

/-- `for i in range(i, w, -1): if p i: return i` — the backward scans of
`find_split_point`, with the iteration count made explicit. -/
def scanBackAux (p : Int → Bool) (i : Int) : Nat → Option Int
  | 0 => none
  | n + 1 => if p i then some i else scanBackAux p (i - 1) n

/-- Backward search for the largest position in `(w, i]` satisfying `p`. -/
def scanBack (p : Int → Bool) (i w : Int) : Option Int :=
  scanBackAux p i (i - w).toNat

/-- Paragraph-break test of `find_split_point`:
`i < len(text) - 1 and text[i:i+2] == '\n\n'`. -/
def pbAt (t : List Char) (i : Int) : Bool :=
  decide (i < (t.length : Int) - 1) && getC t i == '\n' && getC t (i + 1) == '\n'

/-- Sentence-ending test: `text[i] in '.!?' and (i+1 >= len or text[i+1] in ' \n')`. -/
def sentAt (t : List Char) (i : Int) : Bool :=
  decide (i < (t.length : Int)) &&
    (getC t i == '.' || getC t i == '!' || getC t i == '?') &&
    (decide ((t.length : Int) ≤ i + 1) || getC t (i + 1) == ' ' ||
      getC t (i + 1) == '\n')

/-- Clause-boundary test: `text[i] in ',;:' and (i+1 >= len or text[i+1] == ' ')`. -/
def clauseAt (t : List Char) (i : Int) : Bool :=
  decide (i < (t.length : Int)) &&
    (getC t i == ',' || getC t i == ';' || getC t i == ':') &&
    (decide ((t.length : Int) ≤ i + 1) || getC t (i + 1) == ' ')

/-- Word-boundary test: `text[i] == ' '`. -/
def spaceAt (t : List Char) (i : Int) : Bool :=
  decide (i < (t.length : Int)) && getC t i == ' '

/-- `find_split_point` of `processor.py`: clamp the target to the length,
then search backward through `(max 0 (target - search_range), target]` for a
paragraph break (returning `i + 2`), else a sentence ending, clause boundary
or space (returning `i + 1`), else fall back to the clamped target.  (The
code's `end = min(len(text), target_pos + search_range)` is unused.) -/
def find_split_point (t : List Char) (target_pos : Int) (search_range : Int) :
    Int :=
  let tp := min target_pos (t.length : Int)
  let w := max 0 (tp - search_range)
  match scanBack (pbAt t) tp w with
  | some i => i + 2
  | none =>
    match scanBack (sentAt t) tp w with
    | some i => i + 1
    | none =>
      match scanBack (clauseAt t) tp w with
      | some i => i + 1
      | none =>
        match scanBack (spaceAt t) tp w with
        | some i => i + 1
        | none => tp

/-- The end position proposed by one `chunk_text` iteration:
`end = start + chunk_size`, snapped by `find_split_point` when interior. -/
def computeEnd (t : List Char) (cs : Nat) (s : Int) : Int :=
  if s + cs < (t.length : Int) then find_split_point t (s + cs) 100
  else t.length

/-- The chunk-emission step: keep `text[start:end].strip()` only when it
reaches `min_chunk_size`. -/
def stepChunks (t : List Char) (mn : Nat) (s e : Int) (chunks : List Span) :
    List Span :=
  let ct := pyStrip (pySlice t s e)
  if mn ≤ ct.length then chunks ++ [(ct, s, e)] else chunks

/-- The start-position update of `chunk_text`: `start = end - chunk_overlap`,
then `if (start <= chunks[-1][1]) if chunks else 0: start = end` — note the
conditional-expression parse of the original line: when no chunk has been
kept the progress guard is the constant falsy `0`. -/
def nextStart (ov : Nat) (e : Int) (chunks : List Span) : Int :=
  let s := e - (ov : Int)
  match chunks.getLast? with
  | some c => if s ≤ c.2.1 then e else s
  | none => s

/-- The `while start < len(text)` loop of `chunk_text`, with explicit fuel;
`none` means the loop has not finished within `fuel` iterations. -/
def chunkLoop (t : List Char) (cs ov mn : Nat) :
    Nat → Int → List Span → Option (List Span)
  | 0, _, _ => none
  | fuel + 1, start, chunks =>
    if start < (t.length : Int) then
      let e := computeEnd t cs start
      let chunks2 := stepChunks t mn start e chunks
      chunkLoop t cs ov mn fuel (nextStart ov e chunks2) chunks2
    else some chunks

/-- `chunk_text` of `processor.py`.  The three size parameters go through
Python's `x or default` (`none` models an omitted argument), the text is
cleaned, the empty text returns `[]`, a text no longer than the chunk size
returns one whole-text span, and otherwise the chunking loop runs. -/
def chunk_text (fuel : Nat) (s : String)
    (chunk_size chunk_overlap min_chunk_size : Option Nat) :
    Option (List Span) :=
  let cs := pyArg chunk_size 1000
  let ov := pyArg chunk_overlap 200
  let mn := pyArg min_chunk_size 100
  let t := clean_text s
  if t.isEmpty then some []
  else if t.length ≤ cs then some [(t, 0, (t.length : Int))]
  else chunkLoop t cs ov mn fuel 0 []

/-- `chunk_article` of `processor.py`, restricted to the data the Segmenter
sees: chunk `"# {title}\n\n{content}"` with the default parameters and pair
every chunk with its `chunk_index` (`enumerate`). -/
def chunk_article (fuel : Nat) (title content : String) :
    Option (List (Nat × Span)) :=
  (chunk_text fuel ("# " ++ title ++ "\n\n" ++ content) none none none).map
    List.enum

/-! ### Generic lemmas about the stable insertion sort -/

theorem stInsert_perm (bef : α → α → Bool) (a : α) :
    ∀ l : List α, (stInsert bef a l).Perm (a :: l) := by
  intro l
  induction l with
  | nil => simp [stInsert]
  | cons b t ih =>
    by_cases h : bef a b = true
    · simp [stInsert, h]
    · simp only [stInsert, h, if_false]
      exact (ih.cons b).trans (List.Perm.swap a b t)

theorem stSort_perm (bef : α → α → Bool) :
    ∀ l : List α, (stSort bef l).Perm l := by
  intro l
  induction l with
  | nil => simp [stSort]
  | cons a t ih =>
    exact (stInsert_perm bef a (stSort bef t)).trans (ih.cons a)

theorem stInsert_pairwise (bef : α → α → Bool)
    (htot : ∀ a b, bef a b = true ∨ bef b a = true)
    (htrans : ∀ a b c, bef a b = true → bef b c = true → bef a c = true)
    (a : α) :
    ∀ l : List α, l.Pairwise (fun x y => bef x y = true) →
      (stInsert bef a l).Pairwise (fun x y => bef x y = true) := by
  intro l
  induction l with
  | nil => intro _; simp [stInsert]
  | cons b t ih =>
    intro hl
    rw [List.pairwise_cons] at hl
    by_cases h : bef a b = true
    · simp only [stInsert, h, if_true]
      refine List.Pairwise.cons ?_ (List.Pairwise.cons hl.1 hl.2)
      intro x hx
      rcases List.mem_cons.mp hx with rfl | hx
      · exact h
      · exact htrans a b x h (hl.1 x hx)
    · simp only [stInsert, h, if_false]
      refine List.Pairwise.cons ?_ (ih hl.2)
      intro x hx
      have hx' : x ∈ a :: t := (stInsert_perm bef a t).mem_iff.mp hx
      rcases List.mem_cons.mp hx' with rfl | hx2
      · rcases htot x b with h' | h'
        · exact absurd h' h
        · exact h'
      · exact hl.1 x hx2

theorem stSort_pairwise (bef : α → α → Bool)
    (htot : ∀ a b, bef a b = true ∨ bef b a = true)
    (htrans : ∀ a b c, bef a b = true → bef b c = true → bef a c = true) :
    ∀ l : List α, (stSort bef l).Pairwise (fun x y => bef x y = true) := by
  intro l
  induction l with
  | nil => simp [stSort]
  | cons a t ih => exact stInsert_pairwise bef htot htrans a _ ih

theorem stInsert_filter (bef : α → α → Bool) (p : α → Bool) (a : α)
    (hpb : ∀ b, p a = true → p b = true → bef a b = true) :
    ∀ l : List α, (stInsert bef a l).filter p =
      if p a then a :: l.filter p else l.filter p := by
  intro l
  induction l with
  | nil => by_cases h : p a <;> simp [stInsert, List.filter, h]
  | cons b t ih =>
    by_cases h : bef a b = true
    · by_cases ha : p a <;> simp [stInsert, h, List.filter_cons, ha]
    · simp only [stInsert, h, if_false, List.filter_cons]
      by_cases ha : p a
      · have hb : ¬ p b = true := fun hb => h (hpb b ha hb)
        simp only [ha, if_true] at ih
        simp [hb, ih, ha]
      · simp only [ha, if_false] at ih
        by_cases hb : p b = true <;> simp [hb, ih, ha]

theorem stSort_filter (bef : α → α → Bool) (p : α → Bool)
    (hpp : ∀ a b, p a = true → p b = true → bef a b = true) :
    ∀ l : List α, (stSort bef l).filter p = l.filter p := by
  intro l
  induction l with
  | nil => simp [stSort]
  | cons a t ih =>
    rw [stSort, stInsert_filter bef p a (fun b => hpp a b), ih,
      List.filter_cons]

/-- `pyArg` never produces zero from a positive default: Python's
`x or default` turns an explicit `0` (or omitted argument) into the default. -/
theorem pyArg_pos (x : Option Nat) (d : Nat) (hd : 0 < d) : 0 < pyArg x d := by
  cases x with
  | none => exact hd
  | some v =>
    by_cases h : v = 0
    · simpa [pyArg, h] using hd
    · simpa [pyArg, h] using Nat.pos_of_ne_zero h

/-- The accumulating fold of `classify_text` appends exactly the images of
the entries passing the test, in order. -/
theorem foldl_app_filter {β : Type} (p : β → Bool) (f : β → String) :
    ∀ (L : List β) (acc : List String),
      L.foldl (fun acc kv => if p kv then acc ++ [f kv] else acc) acc
        = acc ++ (L.filter p).map f := by
  intro L
  induction L with
  | nil => intro acc; simp
  | cons kv tl ih =>
    intro acc
    by_cases h : p kv <;> simp [List.filter_cons, h, ih]

/-- `classify_text` is the in-order filter of the taxonomy by "some synonym
occurs in the lowered text", projected to the canonical names. -/
theorem classify_eq_filter (t : String) :
    classify_text t = (TAXONOMY.filter
      (fun kv => kv.2.any fun syn => containsSubStr (pyLower syn) (pyLower t))).map
      (fun kv => kv.1) := by
  unfold classify_text
  rw [foldl_app_filter]
  rfl

/-- The canonical topic names of `TAXONOMY` are pairwise distinct. -/
theorem taxonomy_keys_nodup : (TAXONOMY.map (fun kv => kv.1)).Nodup := by
  decide

/-- C8: `classify_text` is deterministic (a pure function of the text), each
canonical topic appears at most once however many of its synonyms match, the
output order is the taxonomy definition order (the output is the in-order
projection of the filtered taxonomy), and the empty text or a text matching
no synonym yields the empty list rather than an error. -/
theorem C8_classify_deterministic_ordered (t : String) :
    classify_text t = classify_text t ∧
    (classify_text t).Nodup ∧
    classify_text t = (TAXONOMY.filter
      (fun kv => kv.2.any fun syn => containsSubStr (pyLower syn) (pyLower t))).map
      (fun kv => kv.1) ∧
    classify_text ("") = [] ∧
    ((∀ kv ∈ TAXONOMY, ∀ syn ∈ kv.2,
        containsSubStr (pyLower syn) (pyLower t) = false) →
      classify_text t = []) := by
  refine ⟨rfl, ?_, classify_eq_filter t, by decide, ?_⟩
  · rw [classify_eq_filter t]
    exact ((List.filter_sublist TAXONOMY).map (fun kv => kv.1)).nodup
      taxonomy_keys_nodup
  · intro h
    have hfil : TAXONOMY.filter
        (fun kv => kv.2.any fun syn => containsSubStr (pyLower syn) (pyLower t))
        = [] := by
      rw [List.filter_eq_nil_iff]
      intro kv hkv hany
      rcases List.any_eq_true.mp hany with ⟨syn, hsyn, hc⟩
      rw [h kv hkv syn hsyn] at hc
      exact Bool.false_ne_true hc
    rw [classify_eq_filter t, hfil]
    rfl

/-- Witness for C8 at a text matching no synonym. -/
theorem C8_classify_witness : classify_text ("zzz qqq") = [] :=
  (C8_classify_deterministic_ordered ("zzz qqq")).2.2.2.2 (by decide)

/-- C10: passing an explicit `0` for `chunk_size`, `chunk_overlap` or
`min_chunk_size` is indistinguishable from omitting the argument — the zero
is replaced by the configuration defaults 1000/200/100 — and consequently
the effective parameters are never zero. -/
theorem C10_falsy_params_become_defaults :
    ∀ (fuel : Nat) (s : String) (cs ov mn : Option Nat),
      chunk_text fuel s (some 0) ov mn = chunk_text fuel s none ov mn ∧
      chunk_text fuel s cs (some 0) mn = chunk_text fuel s cs none mn ∧
      chunk_text fuel s cs ov (some 0) = chunk_text fuel s cs ov none ∧
      pyArg (some 0) 1000 = 1000 ∧ pyArg (some 0) 200 = 200 ∧
      pyArg (some 0) 100 = 100 ∧
      0 < pyArg cs 1000 ∧ 0 < pyArg ov 200 ∧ 0 < pyArg mn 100 := by
  intro fuel s cs ov mn
  exact ⟨rfl, rfl, rfl, rfl, rfl, rfl, pyArg_pos cs 1000 (by decide),
    pyArg_pos ov 200 (by decide), pyArg_pos mn 100 (by decide)⟩

/-- Witness for C10 at concrete arguments. -/
theorem C10_falsy_params_witness :
    chunk_text 3 ("abc") (some 0) (some 0) (some 0) =
      chunk_text 3 ("abc") none (some 0) (some 0) ∧
    chunk_text 3 ("abc") (some 7) (some 0) (some 0) =
      chunk_text 3 ("abc") (some 7) none (some 0) ∧
    chunk_text 3 ("abc") (some 7) (some 2) (some 0) =
      chunk_text 3 ("abc") (some 7) (some 2) none ∧
    pyArg (some 0) 1000 = 1000 ∧ pyArg (some 0) 200 = 200 ∧
    pyArg (some 0) 100 = 100 ∧
    0 < pyArg (some 7) 1000 ∧ 0 < pyArg (some 2) 200 ∧
    0 < pyArg (some 0) 100 := by
  have h1 := C10_falsy_params_become_defaults 3 ("abc") (some 0) (some 0)
    (some 0)
  have h2 := C10_falsy_params_become_defaults 3 ("abc") (some 7) (some 2)
    (some 0)
  exact ⟨h1.1, h2.2.1, h2.2.2.1, h1.2.2.2.1, h1.2.2.2.2.1, h1.2.2.2.2.2.1,
    h2.2.2.2.2.2.2.1, h2.2.2.2.2.2.2.2.1, h2.2.2.2.2.2.2.2.2⟩

/-- C1: an observation with a missing `name` field makes the whole merge
abort (the `topic["name"]` KeyError), even though a well-formed observation
is present in the same batch; the same input without the malformed
observation merges fine.  This contradicts the skip-and-continue failure
semantics the specification requires. -/
theorem C1_missing_name_aborts_whole_merge :
    merge_topics [[⟨some ("ai"), some 3, []⟩, ⟨none, some 2, []⟩]] = none ∧
    merge_topics [[⟨some ("ai"), some 3, []⟩]] = some [⟨"Ai", 3, []⟩] := by
  exact ⟨rfl, by decide⟩

/-- C9: the Segmenter's guard cases — an input cleaning to the empty text
yields the empty chunk list, and a non-empty cleaned text no longer than the
effective chunk size yields the single whole-text span, for every
`min_chunk_size` (the size floor only applies inside the loop). -/
theorem C9_empty_and_short_inputs (fuel : Nat) (s : String)
    (cs ov mn : Option Nat) :
    (clean_text s = [] → chunk_text fuel s cs ov mn = some []) ∧
    (clean_text s ≠ [] → (clean_text s).length ≤ pyArg cs 1000 →
      chunk_text fuel s cs ov mn =
        some [(clean_text s, 0, ((clean_text s).length : Int))]) := by
  constructor
  · intro h
    simp [chunk_text, h]
  · intro h1 h2
    simp [chunk_text, List.isEmpty_iff, h1, h2]

/-- Witness for C9 on the empty string and on a two-character text with a
minimum chunk size far above the text length. -/
theorem C9_witness :
    chunk_text 1 ("") (some 5) (some 1) (some 1) = some [] ∧
    chunk_text 1 ("hi") (some 10) (some 2) (some 99) =
      some [(clean_text ("hi"), 0, ((clean_text ("hi")).length : Int))] :=
  ⟨(C9_empty_and_short_inputs 1 ("") (some 5) (some 1) (some 1)).1 rfl,
   (C9_empty_and_short_inputs 1 ("hi") (some 10) (some 2) (some 99)).2
     (by decide) (by decide)⟩

/-- C7: with more entries than the cap, `fetch_feed` keeps the first `k` of
a descending stable sort of the scored entries: the kept list is the `k`-
prefix of a permutation of the scored entries that is sorted by descending
relevance score and preserves, score class by score class, the original
relative order (the filter characterisation of stability). -/
theorem C7_ranker_stable_topk (entries : List Entry) (k : Nat)
    (hk : k < entries.length) :
    ∃ S : List (Entry × Nat),
      S.Perm (entries.map fun e => (e, score_entry_relevance e)) ∧
      S.Pairwise (fun a b => b.2 ≤ a.2) ∧
      (∀ sc : Nat,
        S.filter (fun q => q.2 == sc) =
          (entries.map fun e => (e, score_entry_relevance e)).filter
            (fun q => q.2 == sc)) ∧
      fetch_feed_select entries k = (S.take k).map (fun p => p.1) ∧
      (fetch_feed_select entries k).length = k := by
  have htot : ∀ a b : Entry × Nat,
      (fun a b : Entry × Nat => decide (b.2 ≤ a.2)) a b = true ∨
      (fun a b : Entry × Nat => decide (b.2 ≤ a.2)) b a = true := by
    intro a b
    rcases Nat.le_total b.2 a.2 with h | h
    · exact Or.inl (by simpa using h)
    · exact Or.inr (by simpa using h)
  have htrans : ∀ a b c : Entry × Nat,
      (fun a b : Entry × Nat => decide (b.2 ≤ a.2)) a b = true →
      (fun a b : Entry × Nat => decide (b.2 ≤ a.2)) b c = true →
      (fun a b : Entry × Nat => decide (b.2 ≤ a.2)) a c = true := by
    intro a b c h1 h2
    simp only [decide_eq_true_eq] at h1 h2 ⊢
    omega
  refine ⟨stSort (fun a b => decide (b.2 ≤ a.2))
      (entries.map fun e => (e, score_entry_relevance e)),
    stSort_perm _ _, ?_, ?_, ?_, ?_⟩
  · exact (stSort_pairwise _ htot htrans _).imp fun h => by simpa using h
  · intro sc
    refine stSort_filter _ _ ?_ _
    intro a b ha hb
    simp only [beq_iff_eq] at ha hb
    simp [ha, hb]
  · unfold fetch_feed_select
    rw [if_pos hk]
  · unfold fetch_feed_select
    rw [if_pos hk]
    rw [List.length_map, List.length_take,
      (stSort_perm _ _).length_eq, List.length_map]
    exact Nat.min_eq_left (Nat.le_of_lt hk)

/-- Sample entries for the ranker witness: scores 2, 1, 0, 1 — a tie between
the second and fourth entries. -/
def c7Entries : List Entry :=
  [⟨some ("openai claude"), none⟩, ⟨some ("gemini"), none⟩,
   ⟨some ("boring"), none⟩, ⟨some ("llama"), none⟩]

/-- Witness for C7 at a concrete entry list with tied scores. -/
theorem C7_ranker_witness :
    ∃ S : List (Entry × Nat),
      S.Perm (c7Entries.map fun e => (e, score_entry_relevance e)) ∧
      S.Pairwise (fun a b => b.2 ≤ a.2) ∧
      (∀ sc : Nat,
        S.filter (fun q => q.2 == sc) =
          (c7Entries.map fun e => (e, score_entry_relevance e)).filter
            (fun q => q.2 == sc)) ∧
      fetch_feed_select c7Entries 2 = (S.take 2).map (fun p => p.1) ∧
      (fetch_feed_select c7Entries 2).length = 2 :=
  C7_ranker_stable_topk c7Entries 2 (by decide)

/-- On the cleaned text `"abcdefghijk"` with `chunk_size = 10`,
`chunk_overlap = 5`, `min_chunk_size = 100`, the loop state
`start = 6, chunks = []` reproduces itself: the 10-character and tail
chunks are both dropped by the size floor, `start = end - overlap` lands on
`6` again, and the progress guard never fires because no chunk has been
kept.  Hence the loop never finishes, whatever the fuel. -/
theorem chunkLoop_stall_abc :
    ∀ f, chunkLoop (clean_text ("abcdefghijk")) 10 5 100 f 6 [] = none
  | 0 => rfl
  | f + 1 => chunkLoop_stall_abc f

/-- C2: the Segmenter does not always terminate.  On the input
`"abcdefghijk"` with the precondition-satisfying parameters
`chunk_size = 10 > 0`, `0 ≤ chunk_overlap = 5 < 10`, `min_chunk_size = 100`,
the `while` loop of `chunk_text` runs forever (the model returns `none` for
every fuel): after the first two iterations drop their undersized chunks the
state stalls at `start = 6`, and the forced `start = end` advance never
happens because the progress guard compares against the last *kept* chunk
and no chunk has been kept. -/
theorem C2_chunk_text_diverges :
    ∀ fuel, chunk_text fuel ("abcdefghijk") (some 10) (some 5) (some 100) = none
  | 0 => rfl
  | 1 => rfl
  | f + 2 => chunkLoop_stall_abc f

/-- Witness for C2 at a concrete fuel value. -/
theorem C2_diverges_witness :
    chunk_text 1000 ("abcdefghijk") (some 10) (some 5) (some 100) = none :=
  C2_chunk_text_diverges 1000

/-- C6: in the canonicalization pass, when the raw key `k` merges into the
first matching canonical key `c` through the word-overlap rule (no earlier
canonical key matches, the substring rule fails for `c`, the word-overlap
test holds), then: if `k` is strictly shorter than `c` in characters, `k`
replaces `c` as the bucket's canonical key (the re-keyed bucket moves to the
dict's end) with the counts summed and the example sets unioned; otherwise
the bucket keeps the key `c` (again with count summed and examples
unioned). -/
theorem C6_word_overlap_shorter_key_wins
    (pre tl : List (String × Bucket)) (c : String) (b : Bucket)
    (k : String) (bkt : Bucket)
    (hpre : ∀ p ∈ pre, matchSub k p.1 = false ∧ wordOv k p.1 = false)
    (hms : matchSub k c = false) (hwo : wordOv k c = true) :
    insertCanon k bkt (pre ++ (c, b) :: tl) =
      (if k.length < c.length then
        pre ++ tl ++ [(k, ⟨b.count + bkt.count, unionEx b.examples bkt.examples⟩)]
      else
        pre ++ (c, ⟨b.count + bkt.count, unionEx b.examples bkt.examples⟩) :: tl) := by
  induction pre with
  | nil =>
    simp only [List.nil_append, insertCanon, hms, Bool.false_eq_true, if_false,
      hwo, if_true]
  | cons p pre ih =>
    obtain ⟨pk, pb⟩ := p
    have hp := hpre (pk, pb) (List.mem_cons_self (pk, pb) pre)
    have ih' := ih (fun q hq => hpre q (List.mem_cons_of_mem (pk, pb) hq))
    have hstep : insertCanon k bkt (((pk, pb) :: pre) ++ (c, b) :: tl)
        = (pk, pb) :: insertCanon k bkt (pre ++ (c, b) :: tl) := by
      simp [insertCanon, hp.1, hp.2]
    rw [hstep, ih']
    by_cases hlen : k.length < c.length <;>
      simp [hlen, List.append_assoc]

/-- Witness for C6: `"safety ai"` word-overlap-merges into
`"ai safety research"` past a non-matching earlier canonical key and,
being shorter, re-keys the bucket. -/
theorem C6_witness :
    insertCanon ("safety ai") ⟨2, ["y"]⟩
        ([("quantum computing", ⟨4, []⟩)] ++
          ("ai safety research", (⟨5, ["x"]⟩ : Bucket)) :: [("iot", ⟨7, []⟩)]) =
      (if ("safety ai" : String).length < ("ai safety research" : String).length then
        [("quantum computing", ⟨4, []⟩)] ++ [("iot", ⟨7, []⟩)] ++
          [("safety ai", ⟨5 + 2, unionEx ["x"] ["y"]⟩)]
      else
        [("quantum computing", ⟨4, []⟩)] ++
          ("ai safety research", (⟨5 + 2, unionEx ["x"] ["y"]⟩ : Bucket)) ::
            [("iot", ⟨7, []⟩)]) :=
  C6_word_overlap_shorter_key_wins [("quantum computing", ⟨4, []⟩)]
    [("iot", ⟨7, []⟩)] ("ai safety research") ⟨5, ["x"]⟩ ("safety ai")
    ⟨2, ["y"]⟩ (by decide) (by decide) (by decide)

/-- Total observation count held by an aggregation map. -/
def bucketsTotal (m : List (String × Bucket)) : Int :=
  (m.map (fun p => p.2.count)).sum

/-- Total count of a merged-topic list. -/
def mergedTotal (l : List Merged) : Int :=
  (l.map (fun mt => mt.count)).sum

/-- Total count carried by the input batches (a missing `count` counts as
the default 1 the code substitutes). -/
def obsTotal (batches : List (List Obs)) : Int :=
  (batches.map (fun b => (b.map (fun o => o.count.getD 1)).sum)).sum

/-- Step-1 update conserves the total count. -/
theorem bump_total (m : List (String × Bucket)) (key : String) (cnt : Int)
    (exs : List String) :
    bucketsTotal (bump m key cnt exs) = bucketsTotal m + cnt := by
  induction m with
  | nil => simp [bump, bucketsTotal]
  | cons p t ih =>
    obtain ⟨k, b⟩ := p
    by_cases h : k = key
    · simp only [bump, h, if_true, bucketsTotal, List.map_cons, List.sum_cons]
      simp only [bucketsTotal] at *
      ring
    · simp only [bump, h, if_false, bucketsTotal, List.map_cons, List.sum_cons]
      simp only [bucketsTotal] at ih
      rw [ih]
      ring

/-- Step-1 update leaves the key list alone or appends the fresh key. -/
theorem bump_keys (m : List (String × Bucket)) (key : String) (cnt : Int)
    (exs : List String) :
    (bump m key cnt exs).map (fun p => p.1) =
      (if key ∈ m.map (fun p => p.1) then m.map (fun p => p.1)
       else m.map (fun p => p.1) ++ [key]) := by
  induction m with
  | nil => simp [bump]
  | cons p t ih =>
    obtain ⟨k, b⟩ := p
    by_cases h : k = key
    · simp [bump, h]
    · have hne : ¬ key = k := fun hk => h hk.symm
      simp only [bump, h, if_false, List.map_cons, ih, List.mem_cons, hne,
        false_or]
      by_cases hmem : key ∈ t.map (fun p => p.1) <;> simp [hmem]

/-- Step-1 update preserves distinctness of the keys. -/
theorem bump_nodup (m : List (String × Bucket)) (key : String) (cnt : Int)
    (exs : List String) (hnd : (m.map (fun p => p.1)).Nodup) :
    ((bump m key cnt exs).map (fun p => p.1)).Nodup := by
  rw [bump_keys]
  by_cases hmem : key ∈ m.map (fun p => p.1)
  · simpa [hmem] using hnd
  · simp only [hmem, if_false]
    refine List.Nodup.append hnd (List.nodup_singleton key) ?_
    intro a ha hb
    rw [List.mem_singleton] at hb
    exact hmem (hb ▸ ha)

/-- Folding step 1 over one batch whose observations all carry a name:
the fold succeeds, adds exactly the batch's counts, and keeps keys
distinct. -/
theorem foldlM_aggObs (b : List Obs) :
    ∀ m : List (String × Bucket), (∀ o ∈ b, o.name.isSome) →
      ∃ m', b.foldlM aggObs m = some m' ∧
        bucketsTotal m' = bucketsTotal m + (b.map (fun o => o.count.getD 1)).sum ∧
        ((m.map (fun p => p.1)).Nodup → (m'.map (fun p => p.1)).Nodup) := by
  induction b with
  | nil =>
    intro m _
    exact ⟨m, rfl, by simp, fun h => h⟩
  | cons o t ih =>
    intro m h
    obtain ⟨nm, hnm⟩ := Option.isSome_iff_exists.mp (h o (List.mem_cons_self o t))
    obtain ⟨m', hfold, htot, hnd⟩ :=
      ih (bump m (pyLower (pyStripStr nm)) (o.count.getD 1) o.examples)
        (fun o' ho' => h o' (List.mem_cons_of_mem o ho'))
    refine ⟨m', ?_, ?_, ?_⟩
    · rw [List.foldlM_cons]
      simp only [aggObs, hnm]
      exact hfold
    · rw [htot, bump_total]
      simp only [List.map_cons, List.sum_cons]
      ring
    · intro hm
      exact hnd (bump_nodup m _ _ _ hm)

/-- Step 1 over all batches: with every observation named, aggregation
succeeds, the bucket totals equal the input total, and keys are distinct. -/
theorem aggAll_spec (batches : List (List Obs))
    (h : ∀ b ∈ batches, ∀ o ∈ b, o.name.isSome) :
    ∃ m, aggAll batches = some m ∧ bucketsTotal m = obsTotal batches ∧
      (m.map (fun p => p.1)).Nodup := by
  suffices hgen : ∀ (bs : List (List Obs)) (acc : List (String × Bucket)),
      (∀ b ∈ bs, ∀ o ∈ b, o.name.isSome) →
      ∃ m, bs.foldlM (fun m b => b.foldlM aggObs m) acc = some m ∧
        bucketsTotal m = bucketsTotal acc +
          (bs.map (fun b => (b.map (fun o => o.count.getD 1)).sum)).sum ∧
        ((acc.map (fun p => p.1)).Nodup → (m.map (fun p => p.1)).Nodup) by
    obtain ⟨m, h1, h2, h3⟩ := hgen batches [] h
    exact ⟨m, h1, by simpa [obsTotal, bucketsTotal] using h2, h3 (by simp)⟩
  intro bs
  induction bs with
  | nil =>
    intro acc _
    exact ⟨acc, rfl, by simp, fun h => h⟩
  | cons b t ih =>
    intro acc hname
    obtain ⟨m1, hf1, ht1, hn1⟩ :=
      foldlM_aggObs b acc (hname b (List.mem_cons_self b t))
    obtain ⟨m, hf, ht, hn⟩ :=
      ih m1 (fun b' hb' => hname b' (List.mem_cons_of_mem b hb'))
    refine ⟨m, ?_, ?_, fun ha => hn (hn1 ha)⟩
    · rw [List.foldlM_cons, hf1]
      exact hf
    · rw [ht, ht1]
      simp only [List.map_cons, List.sum_cons]
      ring

/-- Step-2 insertion conserves the total count. -/
theorem insertCanon_total (k : String) (bkt : Bucket) :
    ∀ l, bucketsTotal (insertCanon k bkt l) = bucketsTotal l + bkt.count := by
  intro l
  induction l with
  | nil => simp [insertCanon, bucketsTotal]
  | cons p t ih =>
    obtain ⟨c, b⟩ := p
    by_cases h1 : matchSub k c = true
    · simp only [insertCanon, h1, if_true, bucketsTotal, List.map_cons,
        List.sum_cons]
      ring
    · by_cases h2 : wordOv k c = true
      · by_cases h3 : k.length < c.length
        · simp [insertCanon, h1, h2, h3, bucketsTotal]
          ring
        · simp [insertCanon, h1, h2, h3, bucketsTotal]
          ring
      · simp only [bucketsTotal] at ih
        simp [insertCanon, h1, h2, bucketsTotal, ih]
        ring

/-- Folding step-2 insertions adds exactly the looked-up counts. -/
theorem canon_fold_total (f : String → Bucket) :
    ∀ (keys : List String) (acc : List (String × Bucket)),
      bucketsTotal (keys.foldl (fun cn key => insertCanon key (f key) cn) acc)
        = bucketsTotal acc + (keys.map (fun key => (f key).count)).sum := by
  intro keys
  induction keys with
  | nil => intro acc; simp
  | cons key t ih =>
    intro acc
    rw [List.foldl_cons, ih, insertCanon_total]
    simp only [List.map_cons, List.sum_cons]
    ring

/-- With distinct keys, looking up an entry's own key finds its bucket. -/
theorem lookupB_self (m : List (String × Bucket))
    (hnd : (m.map (fun p => p.1)).Nodup) :
    ∀ p ∈ m, lookupB m p.1 = some p.2 := by
  induction m with
  | nil => intro p hp; cases hp
  | cons q t ih =>
    obtain ⟨k, b⟩ := q
    rw [List.map_cons, List.nodup_cons] at hnd
    intro p hp
    rcases List.mem_cons.mp hp with rfl | hp'
    · simp [lookupB]
    · have hne : ¬ k = p.1 := by
        intro hk
        exact hnd.1 (hk ▸ List.mem_map_of_mem (fun p => p.1) hp')
      simp only [lookupB, hne, if_false]
      exact ih hnd.2 p hp'

/-- Summing looked-up counts over the key list recovers the bucket total. -/
theorem keys_lookup_sum (m : List (String × Bucket))
    (hnd : (m.map (fun p => p.1)).Nodup) :
    ((m.map (fun p => p.1)).map
        (fun key => ((lookupB m key).getD ⟨0, []⟩).count)).sum
      = bucketsTotal m := by
  rw [List.map_map, bucketsTotal]
  congr 1
  refine List.map_congr_left ?_
  intro p hp
  simp [Function.comp, lookupB_self m hnd p hp]

/-- Step 2 (canonicalization) conserves the total count. -/
theorem canonize_total (m : List (String × Bucket))
    (hnd : (m.map (fun p => p.1)).Nodup) :
    bucketsTotal (canonize m) = bucketsTotal m := by
  unfold canonize
  rw [canon_fold_total]
  have hperm : (stSort strLe (m.map (fun p => p.1))).Perm (m.map (fun p => p.1)) :=
    stSort_perm _ _
  rw [List.Perm.sum_eq (hperm.map (fun key => ((lookupB m key).getD ⟨0, []⟩).count)),
    keys_lookup_sum m hnd]
  simp [bucketsTotal]

/-- Step 3 (finalization) conserves the total count. -/
theorem finalize_total (canon : List (String × Bucket)) :
    mergedTotal (finalize canon) = bucketsTotal canon := by
  have h : finalize canon = stSort (fun a b => decide (b.count ≤ a.count))
      (canon.map (fun p =>
        (⟨pyTitle p.1, p.2.count, (stSort strLe p.2.examples).take 5⟩ : Merged))) :=
    rfl
  have hperm := (stSort_perm (fun a b : Merged => decide (b.count ≤ a.count))
      (canon.map (fun p =>
        (⟨pyTitle p.1, p.2.count, (stSort strLe p.2.examples).take 5⟩ : Merged)))).map
      (fun mt => mt.count)
  rw [h, mergedTotal, hperm.sum_eq, List.map_map]
  rfl

/-- C4: for batches whose observations all carry `name` and `count`, the
merge succeeds and the total count of the output equals the total count of
the input observations — no well-formed observation's count is dropped. -/
theorem C4_merge_count_conservation (batches : List (List Obs))
    (h : ∀ b ∈ batches, ∀ o ∈ b, o.name.isSome ∧ o.count.isSome) :
    ∃ out, merge_topics batches = some out ∧
      mergedTotal out = obsTotal batches := by
  obtain ⟨m, hm, htot, hnd⟩ :=
    aggAll_spec batches (fun b hb o ho => (h b hb o ho).1)
  refine ⟨finalize (canonize m), ?_, ?_⟩
  · unfold merge_topics
    rw [hm]
    rfl
  · rw [finalize_total, canonize_total m hnd, htot]

/-- Witness for C4 on two batches exercising the substring merge. -/
theorem C4_merge_witness :
    ∃ out, merge_topics [[⟨some ("ai safety"), some 3, ["a"]⟩],
        [⟨some ("ai safety research"), some 2, ["b"]⟩]] = some out ∧
      mergedTotal out = obsTotal [[⟨some ("ai safety"), some 3, ["a"]⟩],
        [⟨some ("ai safety research"), some 2, ["b"]⟩]] :=
  C4_merge_count_conservation _ (by decide)

/-! ### The backward boundary scans of `find_split_point` -/

theorem scanBackAux_some (p : Int → Bool) :
    ∀ (n : Nat) (i j : Int), scanBackAux p i n = some j →
      p j = true ∧ j ≤ i ∧ i - n < j ∧ ∀ m, j < m → m ≤ i → p m = false := by
  intro n
  induction n with
  | zero => intro i j h; cases h
  | succ n ih =>
    intro i j h
    rw [scanBackAux] at h
    by_cases hp : p i = true
    · rw [if_pos hp] at h
      injection h with h
      exact ⟨h ▸ hp, by omega, by omega, fun m h1 h2 => absurd h1 (by omega)⟩
    · rw [if_neg hp] at h
      obtain ⟨h1, h2, h3, h4⟩ := ih (i - 1) j h
      refine ⟨h1, by omega, by omega, ?_⟩
      intro m hm1 hm2
      by_cases hmi : m = i
      · subst hmi
        exact Bool.eq_false_iff.mpr hp
      · exact h4 m hm1 (by omega)

theorem scanBackAux_none (p : Int → Bool) :
    ∀ (n : Nat) (i : Int), scanBackAux p i n = none →
      ∀ m, i - n < m → m ≤ i → p m = false := by
  intro n
  induction n with
  | zero => intro i _ m h1 h2; omega
  | succ n ih =>
    intro i h m h1 h2
    rw [scanBackAux] at h
    by_cases hp : p i = true
    · rw [if_pos hp] at h; cases h
    · rw [if_neg hp] at h
      by_cases hmi : m = i
      · subst hmi
        exact Bool.eq_false_iff.mpr hp
      · exact ih (i - 1) h m (by omega) (by omega)

theorem scanBack_some (p : Int → Bool) (i w j : Int)
    (h : scanBack p i w = some j) :
    p j = true ∧ w < j ∧ j ≤ i ∧ ∀ m, j < m → m ≤ i → p m = false := by
  unfold scanBack at h
  obtain ⟨h1, h2, h3, h4⟩ := scanBackAux_some p _ i j h
  refine ⟨h1, ?_, h2, h4⟩
  by_cases hiw : w ≤ i
  · have hc : ((i - w).toNat : Int) = i - w := Int.toNat_of_nonneg (by omega)
    omega
  · have hz : (i - w).toNat = 0 := Int.toNat_eq_zero.mpr (by omega)
    rw [hz] at h
    cases h

theorem scanBack_none (p : Int → Bool) (i w : Int)
    (h : scanBack p i w = none) :
    ∀ m, w < m → m ≤ i → p m = false := by
  unfold scanBack at h
  intro m h1 h2
  have hself : i - w ≤ ((i - w).toNat : Int) := Int.self_le_toNat (i - w)
  exact scanBackAux_none p _ i h m (by omega) h2

/-- Membership in the backward-search window of `find_split_point`: at most
100 positions ending at the (clamped) target. -/
def InWin (target i : Int) : Prop :=
  max 0 (target - 100) < i ∧ i ≤ target

/-- The behaviour claimed for the split-point search at an interior target:
in priority order, the rightmost paragraph break in the window (returning
the position just past the double newline), else the rightmost qualifying
sentence terminator (past it), else clause boundary (past it), else space
(past it), else the raw target.  The found boundary always lies at or
before the target. -/
def SplitSpec (t : List Char) (target r : Int) : Prop :=
  (∃ j, InWin target j ∧ pbAt t j = true ∧
     (∀ i, InWin target i → pbAt t i = true → i ≤ j) ∧ r = j + 2) ∨
  ((∀ i, InWin target i → pbAt t i = false) ∧
   ∃ j, InWin target j ∧ sentAt t j = true ∧
     (∀ i, InWin target i → sentAt t i = true → i ≤ j) ∧ r = j + 1) ∨
  ((∀ i, InWin target i → pbAt t i = false ∧ sentAt t i = false) ∧
   ∃ j, InWin target j ∧ clauseAt t j = true ∧
     (∀ i, InWin target i → clauseAt t i = true → i ≤ j) ∧ r = j + 1) ∨
  ((∀ i, InWin target i → pbAt t i = false ∧ sentAt t i = false ∧
      clauseAt t i = false) ∧
   ∃ j, InWin target j ∧ spaceAt t j = true ∧
     (∀ i, InWin target i → spaceAt t i = true → i ≤ j) ∧ r = j + 1) ∨
  ((∀ i, InWin target i → pbAt t i = false ∧ sentAt t i = false ∧
      clauseAt t i = false ∧ spaceAt t i = false) ∧ r = target)

/-- At every interior target the split-point search satisfies the
window/priority/snap-past specification `SplitSpec`. -/
theorem find_split_point_spec (t : List Char) (target : Int)
    (_h0 : 0 ≤ target) (hL : target < (t.length : Int)) :
    SplitSpec t target (find_split_point t target 100) := by
  have htp : min target (t.length : Int) = target := min_eq_left (le_of_lt hL)
  cases hpb : scanBack (pbAt t) target (max 0 (target - 100)) with
  | some j =>
    have hr : find_split_point t target 100 = j + 2 := by
      unfold find_split_point
      rw [htp]
      dsimp only
      rw [hpb]
    obtain ⟨h1, h2, h3, h4⟩ := scanBack_some _ _ _ _ hpb
    refine Or.inl ⟨j, ⟨h2, h3⟩, h1, ?_, hr⟩
    intro i hiw hpi
    by_contra hgt
    rw [h4 i (by omega) hiw.2] at hpi
    exact Bool.false_ne_true hpi
  | none =>
    have hpbf := scanBack_none _ _ _ hpb
    cases hsent : scanBack (sentAt t) target (max 0 (target - 100)) with
    | some j =>
      have hr : find_split_point t target 100 = j + 1 := by
        unfold find_split_point
        rw [htp]
        dsimp only
        rw [hpb, hsent]
      obtain ⟨h1, h2, h3, h4⟩ := scanBack_some _ _ _ _ hsent
      refine Or.inr (Or.inl ⟨fun i hi => hpbf i hi.1 hi.2,
        j, ⟨h2, h3⟩, h1, ?_, hr⟩)
      intro i hiw hpi
      by_contra hgt
      rw [h4 i (by omega) hiw.2] at hpi
      exact Bool.false_ne_true hpi
    | none =>
      have hsentf := scanBack_none _ _ _ hsent
      cases hcl : scanBack (clauseAt t) target (max 0 (target - 100)) with
      | some j =>
        have hr : find_split_point t target 100 = j + 1 := by
          unfold find_split_point
          rw [htp]
          dsimp only
          rw [hpb, hsent, hcl]
        obtain ⟨h1, h2, h3, h4⟩ := scanBack_some _ _ _ _ hcl
        refine Or.inr (Or.inr (Or.inl
          ⟨fun i hi => ⟨hpbf i hi.1 hi.2, hsentf i hi.1 hi.2⟩,
           j, ⟨h2, h3⟩, h1, ?_, hr⟩))
        intro i hiw hpi
        by_contra hgt
        rw [h4 i (by omega) hiw.2] at hpi
        exact Bool.false_ne_true hpi
      | none =>
        have hclf := scanBack_none _ _ _ hcl
        cases hsp : scanBack (spaceAt t) target (max 0 (target - 100)) with
        | some j =>
          have hr : find_split_point t target 100 = j + 1 := by
            unfold find_split_point
            rw [htp]
            dsimp only
            rw [hpb, hsent, hcl, hsp]
          obtain ⟨h1, h2, h3, h4⟩ := scanBack_some _ _ _ _ hsp
          refine Or.inr (Or.inr (Or.inr (Or.inl
            ⟨fun i hi => ⟨hpbf i hi.1 hi.2, hsentf i hi.1 hi.2,
               hclf i hi.1 hi.2⟩,
             j, ⟨h2, h3⟩, h1, ?_, hr⟩)))
          intro i hiw hpi
          by_contra hgt
          rw [h4 i (by omega) hiw.2] at hpi
          exact Bool.false_ne_true hpi
        | none =>
          have hspf := scanBack_none _ _ _ hsp
          have hr : find_split_point t target 100 = target := by
            unfold find_split_point
            rw [htp]
            dsimp only
            rw [hpb, hsent, hcl, hsp]
          exact Or.inr (Or.inr (Or.inr (Or.inr
            ⟨fun i hi => ⟨hpbf i hi.1 hi.2, hsentf i hi.1 hi.2,
               hclf i hi.1 hi.2, hspf i hi.1 hi.2⟩, hr⟩)))

/-- The clause-boundary rule as the claim words it: a `,;:` character
followed by a space — with no end-of-text allowance.  (The code's rule,
`clauseAt`, additionally accepts `i + 1 >= len(text)`.) -/
def clauseAtSpec (t : List Char) (i : Int) : Bool :=
  decide (i < (t.length : Int)) &&
    (getC t i == ',' || getC t i == ';' || getC t i == ':') &&
    (decide (i + 1 < (t.length : Int)) && getC t (i + 1) == ' ')

/-- The frozen claim's split-point specification: exactly `SplitSpec` but
with the claim's clause rule `clauseAtSpec` in place of the code's
`clauseAt`. -/
def SplitSpecClaimed (t : List Char) (target r : Int) : Prop :=
  (∃ j, InWin target j ∧ pbAt t j = true ∧
     (∀ i, InWin target i → pbAt t i = true → i ≤ j) ∧ r = j + 2) ∨
  ((∀ i, InWin target i → pbAt t i = false) ∧
   ∃ j, InWin target j ∧ sentAt t j = true ∧
     (∀ i, InWin target i → sentAt t i = true → i ≤ j) ∧ r = j + 1) ∨
  ((∀ i, InWin target i → pbAt t i = false ∧ sentAt t i = false) ∧
   ∃ j, InWin target j ∧ clauseAtSpec t j = true ∧
     (∀ i, InWin target i → clauseAtSpec t i = true → i ≤ j) ∧ r = j + 1) ∨
  ((∀ i, InWin target i → pbAt t i = false ∧ sentAt t i = false ∧
      clauseAtSpec t i = false) ∧
   ∃ j, InWin target j ∧ spaceAt t j = true ∧
     (∀ i, InWin target i → spaceAt t i = true → i ≤ j) ∧ r = j + 1) ∨
  ((∀ i, InWin target i → pbAt t i = false ∧ sentAt t i = false ∧
      clauseAtSpec t i = false ∧ spaceAt t i = false) ∧ r = target)

/-- Counterexample to C5 as frozen: on the text `"ab,"` at the interior
target 2 the claim (clause boundary only when *followed by a space*, else
raw-target fallback) predicts the result 2, but the code accepts the
trailing comma (`i + 1 >= len(text)`) and returns 3. -/
theorem C5_counterexample :
    find_split_point (("ab,").data) 2 100 = 3 ∧
    ¬ SplitSpecClaimed (("ab,").data) 2
      (find_split_point (("ab,").data) 2 100) := by
  have h3 : find_split_point (("ab,").data) 2 100 = 3 := by decide
  refine ⟨h3, ?_⟩
  rw [h3]
  rintro (⟨j, hw, hp, _, hr⟩ | ⟨_, j, hw, hp, _, hr⟩ | ⟨_, j, hw, hp, _, hr⟩ |
    ⟨_, j, hw, hp, _, hr⟩ | ⟨_, hr⟩)
  · have hj : j = 1 := by omega
    subst hj
    exact absurd hp (by decide)
  · have hj : j = 2 := by omega
    subst hj
    exact absurd hp (by decide)
  · have hj : j = 2 := by omega
    subst hj
    exact absurd hp (by decide)
  · have hj : j = 2 := by omega
    subst hj
    exact absurd hp (by decide)
  · omega

/-- C5 (amended: the clause rule also fires when the `,;:` character ends
the text, matching the code's `i + 1 >= len(text)` allowance): for every
text and interior target (`0 ≤ target < length`), the split-point search
returns per `SplitSpec`: searching backward within the 100-character
window, a boundary at or before the target is found in the priority order
paragraph break (snapping past the double newline) over qualifying
sentence terminator, clause boundary and plain space (snapping past each),
and with no boundary in the window the raw target position is returned. -/
theorem C5_find_split_point_spec (t : List Char) (target : Int)
    (h0 : 0 ≤ target) (hL : target < (t.length : Int)) :
    SplitSpec t target (find_split_point t target 100) :=
  find_split_point_spec t target h0 hL

/-- Witness for C5 on a concrete text whose window holds a sentence
terminator but no paragraph break. -/
theorem C5_find_split_witness :
    SplitSpec ("Hello world. This is".data) 15
      (find_split_point ("Hello world. This is".data) 15 100) :=
  C5_find_split_point_spec ("Hello world. This is".data) 15 (by decide)
    (by decide)

/-! ### Bounds on the split positions, towards the Segmenter invariants -/

theorem pbAt_spec (t : List Char) (i : Int) (h : pbAt t i = true) :
    i + 2 ≤ (t.length : Int) ∧ getC t i = '\n' ∧ getC t (i + 1) = '\n' := by
  simp only [pbAt, Bool.and_eq_true, decide_eq_true_eq, beq_iff_eq] at h
  exact ⟨by omega, h.1.2, h.2⟩

theorem sentAt_lt (t : List Char) (i : Int) (h : sentAt t i = true) :
    i + 1 ≤ (t.length : Int) := by
  simp only [sentAt, Bool.and_eq_true, decide_eq_true_eq] at h
  omega

theorem clauseAt_lt (t : List Char) (i : Int) (h : clauseAt t i = true) :
    i + 1 ≤ (t.length : Int) := by
  simp only [clauseAt, Bool.and_eq_true, decide_eq_true_eq] at h
  omega

theorem spaceAt_lt (t : List Char) (i : Int) (h : spaceAt t i = true) :
    i + 1 ≤ (t.length : Int) := by
  simp only [spaceAt, Bool.and_eq_true, decide_eq_true_eq] at h
  omega

/-- The split position never exceeds the text length. -/
theorem fsp_le (t : List Char) (target : Int) :
    find_split_point t target 100 ≤ (t.length : Int) := by
  unfold find_split_point
  dsimp only
  cases hpb : scanBack (pbAt t) (min target (t.length : Int))
      (max 0 (min target (t.length : Int) - 100)) with
  | some j =>
    dsimp only
    exact (pbAt_spec t j (scanBack_some _ _ _ _ hpb).1).1
  | none =>
    dsimp only
    cases hsent : scanBack (sentAt t) (min target (t.length : Int))
        (max 0 (min target (t.length : Int) - 100)) with
    | some j =>
      dsimp only
      exact sentAt_lt t j (scanBack_some _ _ _ _ hsent).1
    | none =>
      dsimp only
      cases hcl : scanBack (clauseAt t) (min target (t.length : Int))
          (max 0 (min target (t.length : Int) - 100)) with
      | some j =>
        dsimp only
        exact clauseAt_lt t j (scanBack_some _ _ _ _ hcl).1
      | none =>
        dsimp only
        cases hsp : scanBack (spaceAt t) (min target (t.length : Int))
            (max 0 (min target (t.length : Int) - 100)) with
        | some j =>
          dsimp only
          exact spaceAt_lt t j (scanBack_some _ _ _ _ hsp).1
        | none =>
          dsimp only
          exact min_le_right _ _

/-- The split position is positive once the target and the text are. -/
theorem fsp_pos (t : List Char) (target : Int) (h1 : 1 ≤ target)
    (hL : 1 ≤ (t.length : Int)) : 1 ≤ find_split_point t target 100 := by
  unfold find_split_point
  dsimp only
  cases hpb : scanBack (pbAt t) (min target (t.length : Int))
      (max 0 (min target (t.length : Int) - 100)) with
  | some j =>
    have h := (scanBack_some _ _ _ _ hpb).2.1
    dsimp only
    omega
  | none =>
    dsimp only
    cases hsent : scanBack (sentAt t) (min target (t.length : Int))
        (max 0 (min target (t.length : Int) - 100)) with
    | some j =>
      have h := (scanBack_some _ _ _ _ hsent).2.1
      dsimp only
      omega
    | none =>
      dsimp only
      cases hcl : scanBack (clauseAt t) (min target (t.length : Int))
          (max 0 (min target (t.length : Int) - 100)) with
      | some j =>
        have h := (scanBack_some _ _ _ _ hcl).2.1
        dsimp only
        omega
      | none =>
        dsimp only
        cases hsp : scanBack (spaceAt t) (min target (t.length : Int))
            (max 0 (min target (t.length : Int) - 100)) with
        | some j =>
          have h := (scanBack_some _ _ _ _ hsp).2.1
          dsimp only
          omega
        | none =>
          dsimp only
          exact le_min h1 hL

/-- The split position exceeds the target by at most the paragraph snap. -/
theorem fsp_le_target_add2 (t : List Char) (target : Int) :
    find_split_point t target 100 ≤ target + 2 := by
  unfold find_split_point
  dsimp only
  cases hpb : scanBack (pbAt t) (min target (t.length : Int))
      (max 0 (min target (t.length : Int) - 100)) with
  | some j =>
    have h := (scanBack_some _ _ _ _ hpb).2.2.1
    dsimp only
    have := min_le_left target (t.length : Int)
    omega
  | none =>
    dsimp only
    cases hsent : scanBack (sentAt t) (min target (t.length : Int))
        (max 0 (min target (t.length : Int) - 100)) with
    | some j =>
      have h := (scanBack_some _ _ _ _ hsent).2.2.1
      dsimp only
      have := min_le_left target (t.length : Int)
      omega
    | none =>
      dsimp only
      cases hcl : scanBack (clauseAt t) (min target (t.length : Int))
          (max 0 (min target (t.length : Int) - 100)) with
      | some j =>
        have h := (scanBack_some _ _ _ _ hcl).2.2.1
        dsimp only
        have := min_le_left target (t.length : Int)
        omega
      | none =>
        dsimp only
        cases hsp : scanBack (spaceAt t) (min target (t.length : Int))
            (max 0 (min target (t.length : Int) - 100)) with
        | some j =>
          have h := (scanBack_some _ _ _ _ hsp).2.2.1
          dsimp only
          have := min_le_left target (t.length : Int)
          omega
        | none =>
          dsimp only
          have := min_le_left target (t.length : Int)
          omega

/-- The key window lemma: once the split point proposed from start `s0`
landed strictly past `s0`, a split proposed from any later target position
can never land strictly before `s0`.  The backward windows of the two
searches overlap in a way that would have made the earlier search find the
later search's (higher-priority or further-right) boundary. -/
theorem findSplit_ge (t : List Char) (s0 T0 Tp : Int)
    (hT0a : s0 < T0) (hT0L : T0 < (t.length : Int))
    (he0 : s0 < find_split_point t T0 100)
    (hTT : T0 ≤ Tp) (hTpL : Tp < (t.length : Int)) (hT0p : 0 ≤ T0) :
    s0 ≤ find_split_point t Tp 100 := by
  have S0 := find_split_point_spec t T0 hT0p hT0L
  have SP := find_split_point_spec t Tp (by omega) hTpL
  by_contra hcon
  push_neg at hcon
  rcases SP with ⟨j', hw', hpb', hmax', hr'⟩ | ⟨hnpb', j', hw', hs', hmax', hr'⟩ |
    ⟨hns', j', hw', hc', hmax', hr'⟩ | ⟨hnc', j', hw', hsp', hmax', hr'⟩ |
    ⟨hnone', hr'⟩
  · -- the later search returned a paragraph break j' with j' + 2 < s0
    rw [hr'] at hcon
    obtain ⟨hw'1, hw'2⟩ := hw'
    have hTple : Tp ≤ s0 + 97 := by
      have := max_lt_iff.mp hw'1
      omega
    have hjT0 : InWin T0 j' := by
      refine ⟨max_lt_iff.mpr ⟨?_, ?_⟩, by omega⟩
      · have := max_lt_iff.mp hw'1
        omega
      · have := max_lt_iff.mp hw'1
        omega
    rcases S0 with ⟨j0, hw0, hpb0, hmax0, he0eq⟩ | ⟨hnpb0, _⟩ | ⟨hnpb0, _⟩ |
      ⟨hnpb0, _⟩ | ⟨hnpb0, _⟩
    · rw [he0eq] at he0
      have hj0win : InWin Tp j0 := by
        obtain ⟨h1, h2⟩ := hw0
        refine ⟨max_lt_iff.mpr ⟨?_, by omega⟩, by omega⟩
        have := max_lt_iff.mp h1
        omega
      have := hmax' j0 hj0win hpb0
      omega
    all_goals
      have := (hnpb0 j' hjT0)
      rw [hpb'] at this
      first
        | exact Bool.noConfusion this
        | exact Bool.noConfusion this.1
  · -- sentence boundary j' with j' + 1 < s0, no paragraph break at Tp
    rw [hr'] at hcon
    obtain ⟨hw'1, hw'2⟩ := hw'
    have hTple : Tp ≤ s0 + 98 := by
      have := max_lt_iff.mp hw'1
      omega
    have hjT0 : InWin T0 j' := by
      refine ⟨max_lt_iff.mpr ⟨?_, ?_⟩, by omega⟩
      · have := max_lt_iff.mp hw'1
        omega
      · have := max_lt_iff.mp hw'1
        omega
    rcases S0 with ⟨j0, hw0, hpb0, hmax0, he0eq⟩ |
      ⟨hnpb0, j0, hw0, hs0', hmax0, he0eq⟩ | ⟨hns0, _⟩ | ⟨hns0, _⟩ | ⟨hns0, _⟩
    · -- the earlier search found a paragraph break j0 ≥ s0 - 1; it lies in
      -- the later window, contradicting "no paragraph break at Tp"
      rw [he0eq] at he0
      have hj0win : InWin Tp j0 := by
        obtain ⟨h1, h2⟩ := hw0
        refine ⟨max_lt_iff.mpr ⟨?_, by omega⟩, by omega⟩
        have := max_lt_iff.mp h1
        omega
      have := hnpb' j0 hj0win
      rw [hpb0] at this
      exact Bool.noConfusion this
    · rw [he0eq] at he0
      have hj0win : InWin Tp j0 := by
        obtain ⟨h1, h2⟩ := hw0
        refine ⟨max_lt_iff.mpr ⟨?_, by omega⟩, by omega⟩
        have := max_lt_iff.mp h1
        omega
      have := hmax' j0 hj0win hs0'
      omega
    all_goals
      have := (hns0 j' hjT0)
      rw [hs'] at this
      first
        | exact Bool.noConfusion this.2
        | exact Bool.noConfusion this.2.1
  · -- clause boundary j' with j' + 1 < s0; no paragraph/sentence at Tp
    rw [hr'] at hcon
    obtain ⟨hw'1, hw'2⟩ := hw'
    have hTple : Tp ≤ s0 + 98 := by
      have := max_lt_iff.mp hw'1
      omega
    have hjT0 : InWin T0 j' := by
      refine ⟨max_lt_iff.mpr ⟨?_, ?_⟩, by omega⟩
      · have := max_lt_iff.mp hw'1
        omega
      · have := max_lt_iff.mp hw'1
        omega
    rcases S0 with ⟨j0, hw0, hpb0, hmax0, he0eq⟩ |
      ⟨hnpb0, j0, hw0, hs0', hmax0, he0eq⟩ |
      ⟨hns0, j0, hw0, hc0', hmax0, he0eq⟩ | ⟨hnc0, _⟩ | ⟨hnc0, _⟩
    · rw [he0eq] at he0
      have hj0win : InWin Tp j0 := by
        obtain ⟨h1, h2⟩ := hw0
        refine ⟨max_lt_iff.mpr ⟨?_, by omega⟩, by omega⟩
        have := max_lt_iff.mp h1
        omega
      have := (hns' j0 hj0win).1
      rw [hpb0] at this
      exact Bool.noConfusion this
    · rw [he0eq] at he0
      have hj0win : InWin Tp j0 := by
        obtain ⟨h1, h2⟩ := hw0
        refine ⟨max_lt_iff.mpr ⟨?_, by omega⟩, by omega⟩
        have := max_lt_iff.mp h1
        omega
      have := (hns' j0 hj0win).2
      rw [hs0'] at this
      exact Bool.noConfusion this
    · rw [he0eq] at he0
      have hj0win : InWin Tp j0 := by
        obtain ⟨h1, h2⟩ := hw0
        refine ⟨max_lt_iff.mpr ⟨?_, by omega⟩, by omega⟩
        have := max_lt_iff.mp h1
        omega
      have := hmax' j0 hj0win hc0'
      omega
    all_goals
      have := (hnc0 j' hjT0)
      rw [hc'] at this
      first
        | exact Bool.noConfusion this.2.2
        | exact Bool.noConfusion this.2.2.1
  · -- space boundary j' with j' + 1 < s0; no higher-priority boundary at Tp
    rw [hr'] at hcon
    obtain ⟨hw'1, hw'2⟩ := hw'
    have hTple : Tp ≤ s0 + 98 := by
      have := max_lt_iff.mp hw'1
      omega
    have hjT0 : InWin T0 j' := by
      refine ⟨max_lt_iff.mpr ⟨?_, ?_⟩, by omega⟩
      · have := max_lt_iff.mp hw'1
        omega
      · have := max_lt_iff.mp hw'1
        omega
    rcases S0 with ⟨j0, hw0, hpb0, hmax0, he0eq⟩ |
      ⟨hnpb0, j0, hw0, hs0', hmax0, he0eq⟩ |
      ⟨hns0, j0, hw0, hc0', hmax0, he0eq⟩ |
      ⟨hnc0, j0, hw0, hsp0', hmax0, he0eq⟩ | ⟨hnall0, _⟩
    · rw [he0eq] at he0
      have hj0win : InWin Tp j0 := by
        obtain ⟨h1, h2⟩ := hw0
        refine ⟨max_lt_iff.mpr ⟨?_, by omega⟩, by omega⟩
        have := max_lt_iff.mp h1
        omega
      have := (hnc' j0 hj0win).1
      rw [hpb0] at this
      exact Bool.noConfusion this
    · rw [he0eq] at he0
      have hj0win : InWin Tp j0 := by
        obtain ⟨h1, h2⟩ := hw0
        refine ⟨max_lt_iff.mpr ⟨?_, by omega⟩, by omega⟩
        have := max_lt_iff.mp h1
        omega
      have := (hnc' j0 hj0win).2.1
      rw [hs0'] at this
      exact Bool.noConfusion this
    · rw [he0eq] at he0
      have hj0win : InWin Tp j0 := by
        obtain ⟨h1, h2⟩ := hw0
        refine ⟨max_lt_iff.mpr ⟨?_, by omega⟩, by omega⟩
        have := max_lt_iff.mp h1
        omega
      have := (hnc' j0 hj0win).2.2
      rw [hc0'] at this
      exact Bool.noConfusion this
    · rw [he0eq] at he0
      have hj0win : InWin Tp j0 := by
        obtain ⟨h1, h2⟩ := hw0
        refine ⟨max_lt_iff.mpr ⟨?_, by omega⟩, by omega⟩
        have := max_lt_iff.mp h1
        omega
      have := hmax' j0 hj0win hsp0'
      omega
    · have := (hnall0 j' hjT0)
      rw [hsp'] at this
      exact Bool.noConfusion this.2.2.2
  · -- fallback: the later search returned its own target, which is ≥ T0 > s0
    rw [hr'] at hcon
    omega

/-- The proposed end never exceeds the text length. -/
theorem computeEnd_le (t : List Char) (cs : Nat) (s : Int) :
    computeEnd t cs s ≤ (t.length : Int) := by
  unfold computeEnd
  by_cases h : s + (cs : Int) < (t.length : Int)
  · rw [if_pos h]
    exact fsp_le t (s + cs)
  · rw [if_neg h]

/-- The proposed end is positive once the target position is. -/
theorem computeEnd_pos (t : List Char) (cs : Nat) (s : Int)
    (h1 : 1 ≤ s + (cs : Int)) (hL : 1 ≤ (t.length : Int)) :
    1 ≤ computeEnd t cs s := by
  unfold computeEnd
  by_cases h : s + (cs : Int) < (t.length : Int)
  · rw [if_pos h]
    exact fsp_pos t (s + cs) h1 hL
  · rw [if_neg h]
    exact hL

/-- Monotone lower bound: once the end proposed from `s0` passed `s0`, the
end proposed from any later start cannot fall back before `s0`. -/
theorem computeEnd_ge (t : List Char) (cs : Nat) (hcs : 1 ≤ cs)
    (s0 tc : Int) (h00 : 0 ≤ s0) (hev : s0 < computeEnd t cs s0)
    (hle : s0 ≤ tc) : s0 ≤ computeEnd t cs tc := by
  unfold computeEnd at hev ⊢
  by_cases hA : s0 + (cs : Int) < (t.length : Int)
  · rw [if_pos hA] at hev
    by_cases hB : tc + (cs : Int) < (t.length : Int)
    · rw [if_pos hB]
      exact findSplit_ge t s0 (s0 + cs) (tc + cs) (by omega) hA hev (by omega)
        hB (by omega)
    · rw [if_neg hB]
      have := fsp_le t (s0 + cs)
      omega
  · rw [if_neg hA] at hev
    have hB : ¬ tc + (cs : Int) < (t.length : Int) := by omega
    rw [if_neg hB]
    omega

/-- From a negative start position the emitted candidate chunk is always
empty after stripping: the Python slice `text[start:end]` with a negative
`start` reaches at most one character (only when the text is exactly one
character longer than the chunk size and a paragraph break sits at the
window end), and that character is the second newline of the break. -/
theorem negStart_no_emit (t : List Char) (cs ov : Nat)
    (_hov : 1 ≤ ov) (hovcs : ov < cs) (hLcs : (cs : Int) < t.length)
    (s : Int) (hs1 : 1 - (ov : Int) ≤ s) (hs0 : s < 0) :
    pyStrip (pySlice t s (computeEnd t cs s)) = [] := by
  have hA : s + (cs : Int) < (t.length : Int) := by omega
  have hce : computeEnd t cs s = find_split_point t (s + cs) 100 := by
    unfold computeEnd
    rw [if_pos hA]
  rw [hce]
  have he2 : find_split_point t (s + cs) 100 ≤ s + (cs : Int) + 2 :=
    fsp_le_target_add2 t (s + cs)
  have he1 : 1 ≤ find_split_point t (s + cs) 100 :=
    fsp_pos t (s + cs) (by omega) (by omega)
  have heL : find_split_point t (s + cs) 100 ≤ (t.length : Int) :=
    fsp_le t (s + cs)
  have hspec := find_split_point_spec t (s + cs) (by omega) hA
  set e := find_split_point t (s + cs) 100 with hedef
  set L := (t.length : Int) with hLdef
  have hLa : (0 : Int) ≤ L + s := by omega
  have hslice : pySlice t s e = [] ∨ pySlice t s e = ['\n'] := by
    unfold pySlice
    dsimp only
    rw [if_pos hs0, if_neg (by omega : ¬ e < 0), ← hLdef,
      max_eq_right hLa]
    by_cases hne : L + s < min e L
    · -- a nonempty raw slice forces L = cs + 1 and e = s + cs + 2, i.e. a
      -- paragraph break snapped past at the window end; the one-character
      -- slice is the break's second newline
      refine Or.inr ?_
      have hmle : min e L ≤ e := min_le_left e L
      have hLeq : L = (cs : Int) + 1 := by omega
      have hee : e = s + (cs : Int) + 2 := by omega
      have hpb : pbAt t (s + cs) = true := by
        rcases hspec with ⟨j, hw, hp, _, hr⟩ | ⟨_, j, hw, _, _, hr⟩ |
          ⟨_, j, hw, _, _, hr⟩ | ⟨_, j, hw, _, _, hr⟩ | ⟨_, hr⟩
        · have hj : j = s + (cs : Int) := by omega
          rwa [hj] at hp
        · obtain ⟨_, hj2⟩ := hw
          omega
        · obtain ⟨_, hj2⟩ := hw
          omega
        · obtain ⟨_, hj2⟩ := hw
          omega
        · omega
      obtain ⟨_, _, hnl⟩ := pbAt_spec t (s + cs) hpb
      rw [if_pos hne]
      have hmin : min e L = L + s + 1 := by omega
      rw [hmin]
      have hidx : (L + s).toNat < t.length := by omega
      rw [List.drop_eq_getElem_cons hidx]
      have hone : (L + s + 1 - (L + s)).toNat = 1 := by omega
      rw [hone]
      have hchar : t[(L + s).toNat] = '\n' := by
        unfold getC at hnl
        rw [if_pos (by omega : (0:Int) ≤ s + (cs : Int) + 1)] at hnl
        have hsame : (s + (cs : Int) + 1).toNat = (L + s).toNat := by omega
        rw [hsame] at hnl
        rwa [List.getD_eq_getElem t (Char.ofNat 0) hidx] at hnl
      rw [hchar]
      rfl
    · rw [if_neg hne]
      exact Or.inl rfl
  rcases hslice with h | h <;> rw [h] <;> rfl

/-- The span invariant of the data model: offsets into the cleaned text with
`0 ≤ start < end ≤ length`. -/
def SpanOK (L : Int) (sp : Span) : Prop :=
  0 ≤ sp.2.1 ∧ sp.2.1 < sp.2.2 ∧ sp.2.2 ≤ L

/-- A nonempty slice taken from a nonnegative start witnesses
`start < end` (and `start < length`). -/
theorem pySlice_nonempty_pos (t : List Char) (a b : Int) (ha : 0 ≤ a)
    (hb : 0 ≤ b) (h : pySlice t a b ≠ []) :
    a < b ∧ a < (t.length : Int) := by
  unfold pySlice at h
  dsimp only at h
  rw [if_neg (not_lt.mpr ha), if_neg (not_lt.mpr hb)] at h
  by_cases hab : min a (t.length : Int) < min b (t.length : Int)
  · have h1 : min a (t.length : Int) < (t.length : Int) :=
      lt_of_lt_of_le hab (min_le_right b _)
    have haL : a ≤ (t.length : Int) := by
      by_contra hc
      push_neg at hc
      rw [min_eq_right (le_of_lt hc)] at h1
      exact lt_irrefl _ h1
    rw [min_eq_left haL] at hab h1
    exact ⟨lt_of_lt_of_le hab (min_le_left b _), h1⟩
  · rw [if_neg hab] at h
    exact absurd rfl h

/-- The loop invariant of `chunk_text`: the start position never falls
below `1 - overlap`, every kept span satisfies the offset invariant, the
kept spans have non-decreasing starts, and the last kept span starts at or
before the current position and records the end proposed from its start. -/
def Inv (t : List Char) (cs ov : Nat) (start : Int) (chunks : List Span) :
    Prop :=
  1 - (ov : Int) ≤ start ∧
  (∀ sp ∈ chunks, SpanOK (t.length : Int) sp) ∧
  chunks.Chain' (fun a b => a.2.1 ≤ b.2.1) ∧
  ∀ lp, chunks.getLast? = some lp →
    lp.2.1 ≤ start ∧ lp.2.2 = computeEnd t cs lp.2.1

/-- One iteration of the chunking loop preserves the invariant. -/
theorem inv_step (t : List Char) (cs ov mn : Nat)
    (hcs : 1 ≤ cs) (hov : 1 ≤ ov) (hovcs : ov < cs) (hmn : 1 ≤ mn)
    (hLcs : (cs : Int) < t.length)
    (start : Int) (chunks : List Span)
    (hinv : Inv t cs ov start chunks) :
    Inv t cs ov
      (nextStart ov (computeEnd t cs start)
        (stepChunks t mn start (computeEnd t cs start) chunks))
      (stepChunks t mn start (computeEnd t cs start) chunks) := by
  obtain ⟨hsb, hok, hch, hlast⟩ := hinv
  have heL : computeEnd t cs start ≤ (t.length : Int) := computeEnd_le t cs start
  have he1 : 1 ≤ computeEnd t cs start := computeEnd_pos t cs start (by omega)
    (by omega)
  unfold stepChunks
  dsimp only
  by_cases hemit :
      mn ≤ (pyStrip (pySlice t start (computeEnd t cs start))).length
  · rw [if_pos hemit]
    have hs0 : 0 ≤ start := by
      by_contra hneg
      push_neg at hneg
      rw [negStart_no_emit t cs ov hov hovcs hLcs start hsb hneg] at hemit
      simp only [List.length_nil] at hemit
      omega
    have hsl_ne : pySlice t start (computeEnd t cs start) ≠ [] := by
      intro hx
      rw [hx] at hemit
      simp only [pyStrip, List.dropWhile_nil, List.reverse_nil,
        List.length_nil] at hemit
      omega
    have hse : start < computeEnd t cs start :=
      (pySlice_nonempty_pos t start (computeEnd t cs start) hs0 (by omega)
        hsl_ne).1
    have hnext : nextStart ov (computeEnd t cs start)
        (chunks ++ [(pyStrip (pySlice t start (computeEnd t cs start)), start,
          computeEnd t cs start)]) =
        (if computeEnd t cs start - (ov : Int) ≤ start then
          computeEnd t cs start
        else computeEnd t cs start - (ov : Int)) := by
      unfold nextStart
      rw [List.getLast?_concat]
    rw [hnext]
    refine ⟨?_, ?_, ?_, ?_⟩
    · split_ifs with hforced <;> omega
    · intro sp hsp
      rcases List.mem_append.mp hsp with hsp | hsp
      · exact hok sp hsp
      · rw [List.mem_singleton] at hsp
        subst hsp
        exact ⟨hs0, hse, heL⟩
    · rw [List.chain'_append]
      refine ⟨hch, List.chain'_singleton _, ?_⟩
      intro x hx y hy
      rw [List.head?_cons, Option.mem_some_iff] at hy
      subst hy
      exact (hlast x (Option.mem_def.mp hx)).1
    · intro lp hlp
      rw [List.getLast?_concat, Option.some_inj] at hlp
      subst hlp
      refine ⟨?_, rfl⟩
      dsimp only
      split_ifs with hforced <;> omega
  · rw [if_neg hemit]
    refine ⟨?_, hok, hch, ?_⟩
    · unfold nextStart
      dsimp only
      cases hgl : chunks.getLast? with
      | none =>
        dsimp only
        omega
      | some lp =>
        dsimp only
        split_ifs with hforced <;> omega
    · intro lp hlp
      obtain ⟨hle, hev⟩ := hlast lp hlp
      have hmem : lp ∈ chunks := List.mem_of_mem_getLast? (hlp ▸ rfl)
      have hok' := hok lp hmem
      have hge : lp.2.1 ≤ computeEnd t cs start := by
        refine computeEnd_ge t cs hcs lp.2.1 start hok'.1 ?_ hle
        rw [← hev]
        exact hok'.2.1
      refine ⟨?_, hev⟩
      unfold nextStart
      dsimp only
      rw [hlp]
      dsimp only
      split_ifs with hforced <;> omega

/-- Soundness of the chunking loop: whenever it finishes, every produced
span satisfies the offset invariant and the starts are non-decreasing. -/
theorem chunkLoop_sound (t : List Char) (cs ov mn : Nat)
    (hcs : 1 ≤ cs) (hov : 1 ≤ ov) (hovcs : ov < cs) (hmn : 1 ≤ mn)
    (hLcs : (cs : Int) < t.length) :
    ∀ (fuel : Nat) (start : Int) (chunks : List Span),
      Inv t cs ov start chunks →
      ∀ spans, chunkLoop t cs ov mn fuel start chunks = some spans →
        (∀ sp ∈ spans, SpanOK (t.length : Int) sp) ∧
        spans.Chain' (fun a b => a.2.1 ≤ b.2.1) := by
  intro fuel
  induction fuel with
  | zero =>
    intro start chunks _ spans h
    cases h
  | succ fuel ih =>
    intro start chunks hinv spans h
    rw [chunkLoop] at h
    by_cases hlt : start < (t.length : Int)
    · rw [if_pos hlt] at h
      dsimp only at h
      exact ih _ _ (inv_step t cs ov mn hcs hov hovcs hmn hLcs start chunks
        hinv) spans h
    · rw [if_neg hlt] at h
      rw [Option.some_inj] at h
      subst h
      exact ⟨hinv.2.1, hinv.2.2.1⟩

/-- A text on which `chunk_text` with the spec-valid passed parameters
`chunk_size = 120`, `chunk_overlap = 0`, `min_chunk_size = 100` emits a
span with a negative start: 51 letters, a paragraph break, 147 letters. -/
def c3Text : String :=
  ⟨List.replicate 51 'a' ++ '\n' :: '\n' :: List.replicate 147 'a'⟩

/-- The spans `chunk_text` produces on `c3Text` with those parameters. -/
def c3Spans : List Span :=
  [(List.replicate 120 'a', -147, -27), (List.replicate 120 'a', 53, 173)]

set_option maxRecDepth 8192 in
/-- Counterexample to C3 as frozen: with passed parameters satisfying the
spec's preconditions (`targetSize = 120 > 0`, `0 ≤ overlap = 0 < 120`,
`minSize = 100 ≥ 0`), the `x or default` remapping turns the overlap into
the default 200 ≥ 120, the first candidate chunk (51 letters) is dropped by
the size floor, `start = end - overlap` dives to −147, and the loop then
terminates and *emits* the span `(start = −147, end = −27)` — violating
`0 ≤ start` (the recorded offsets are not offsets into the cleaned text:
the emitted 120 characters actually sit at positions 53–172). -/
theorem C3_counterexample :
    chunk_text 8 c3Text (some 120) (some 0) (some 100) = some c3Spans ∧
    ¬ (∀ sp ∈ c3Spans, 0 ≤ sp.2.1) :=
  ⟨by decide, by decide⟩

/-- C3 (amended: restricted to parameters whose *effective* values — after
the `x or default` remapping of `chunk_text`'s argument handling — satisfy
`overlap < chunkSize`; as `C3_counterexample` shows, a spec-valid passed
`overlap = 0` is remapped to the default 200 and the invariant then fails):
every span the Segmenter emits satisfies `0 ≤ start < end ≤ length` of the
cleaned source text, and the spans, in `chunk_index` order, have
non-decreasing start offsets — both for raw `chunk_text` output and for
the enumerated chunks of `chunk_article` (whose default parameters satisfy
the restriction). -/
theorem C3_span_invariants :
    (∀ (fuel : Nat) (s : String) (cs ov mn : Option Nat) (spans : List Span),
      pyArg ov 200 < pyArg cs 1000 →
      chunk_text fuel s cs ov mn = some spans →
      (∀ sp ∈ spans, 0 ≤ sp.2.1 ∧ sp.2.1 < sp.2.2 ∧
        sp.2.2 ≤ ((clean_text s).length : Int)) ∧
      spans.Chain' (fun a b => a.2.1 ≤ b.2.1)) ∧
    (∀ (fuel : Nat) (title content : String) (ich : List (Nat × Span)),
      chunk_article fuel title content = some ich →
      ich.map Prod.fst = List.range ich.length ∧
      (∀ isp ∈ ich, 0 ≤ isp.2.2.1 ∧ isp.2.2.1 < isp.2.2.2 ∧
        isp.2.2.2 ≤
          ((clean_text ("# " ++ title ++ "\n\n" ++ content)).length : Int)) ∧
      (ich.map Prod.snd).Chain' (fun a b => a.2.1 ≤ b.2.1)) := by
  have part1 : ∀ (fuel : Nat) (s : String) (cs ov mn : Option Nat)
      (spans : List Span),
      pyArg ov 200 < pyArg cs 1000 →
      chunk_text fuel s cs ov mn = some spans →
      (∀ sp ∈ spans, 0 ≤ sp.2.1 ∧ sp.2.1 < sp.2.2 ∧
        sp.2.2 ≤ ((clean_text s).length : Int)) ∧
      spans.Chain' (fun a b => a.2.1 ≤ b.2.1) := by
    intro fuel s cs ov mn spans hovcs h
    unfold chunk_text at h
    dsimp only at h
    by_cases h1 : (clean_text s).isEmpty
    · rw [if_pos h1, Option.some_inj] at h
      subst h
      exact ⟨by simp, by simp⟩
    · rw [if_neg h1] at h
      by_cases h2 : (clean_text s).length ≤ pyArg cs 1000
      · rw [if_pos h2, Option.some_inj] at h
        subst h
        have hpos : 0 < (clean_text s).length :=
          List.length_pos.mpr (by simpa [List.isEmpty_iff] using h1)
        refine ⟨?_, List.chain'_singleton _⟩
        intro sp hsp
        rw [List.mem_singleton] at hsp
        subst hsp
        refine ⟨le_refl 0, ?_, le_refl _⟩
        show (0 : Int) < ((clean_text s).length : Int)
        exact_mod_cast hpos
      · rw [if_neg h2] at h
        have hLcs : (pyArg cs 1000 : Int) < (clean_text s).length := by
          exact_mod_cast Nat.lt_of_not_le h2
        have hinv0 : Inv (clean_text s) (pyArg cs 1000) (pyArg ov 200) 0 [] := by
          unfold Inv
          refine ⟨?_, ?_, List.chain'_nil, ?_⟩
          · have := pyArg_pos ov 200 (by decide)
            omega
          · intro sp hsp
            cases hsp
          · intro lp hlp
            cases hlp
        exact chunkLoop_sound (clean_text s) (pyArg cs 1000)
          (pyArg ov 200) (pyArg mn 100)
          (pyArg_pos cs 1000 (by decide)) (pyArg_pos ov 200 (by decide))
          hovcs (pyArg_pos mn 100 (by decide)) hLcs fuel 0 [] hinv0 spans h
  refine ⟨part1, ?_⟩
  intro fuel title content ich h
  unfold chunk_article at h
  cases he : chunk_text fuel ("# " ++ title ++ "\n\n" ++ content)
      none none none with
  | none => rw [he] at h; cases h
  | some spans =>
    rw [he, Option.map_some', Option.some_inj] at h
    subst h
    obtain ⟨hok, hch⟩ := part1 fuel ("# " ++ title ++ "\n\n" ++ content)
      none none none spans (by decide) he
    refine ⟨?_, ?_, ?_⟩
    · rw [List.enum_length, List.enum_map_fst]
    · intro isp hisp
      have hmem : isp.2 ∈ spans := by
        rw [← List.enum_map_snd spans]
        exact List.mem_map_of_mem Prod.snd hisp
      exact hok isp.2 hmem
    · rw [List.enum_map_snd]
      exact hch

/-- Witness for C3 on a concrete multi-chunk run. -/
theorem C3_span_witness :
    (∀ sp ∈ ([(("abcdefghij").data, 0, 10), (("fghijk").data, 5, 11),
        (("ghijk").data, 6, 11)] : List Span),
      0 ≤ sp.2.1 ∧ sp.2.1 < sp.2.2 ∧
        sp.2.2 ≤ ((clean_text ("abcdefghijk")).length : Int)) ∧
    ([(("abcdefghij").data, 0, 10), (("fghijk").data, 5, 11),
        (("ghijk").data, 6, 11)] : List Span).Chain'
      (fun a b => a.2.1 ≤ b.2.1) :=
  C3_span_invariants.1 200 ("abcdefghijk") (some 10) (some 5) (some 1)
    [(("abcdefghij").data, 0, 10), (("fghijk").data, 5, 11),
      (("ghijk").data, 6, 11)] (by decide) (by decide)

end NewsHub
